import Mathlib

/-!
Verification of the warthog fixed-size object pool allocator
(`src/include/warthog/memory/cpool.h`).

The two C++ classes `cchunk` (a fixed-capacity arena with bump allocation
plus a freed-offset stack) and `cpool` (the pool manager owning a growable
collection of chunks) are shallowly embedded below.  Pointers are modelled
as natural numbers (byte addresses); `new char[n]` returning a fresh buffer
is modelled by a symbolic base address supplied by the environment.  The
null pointer returned by `cchunk::allocate` on exhaustion is modelled as
`none`.  The freed-offset array `freed_stack_[0 .. stack_size_)` together
with its stack discipline (write at `stack_size_`, then increment; read
after decrement) is modelled as a `List Nat` whose head is the top of the
stack.
-/

set_option maxHeartbeats 1000000

namespace warthog.memory

/-- `DEFAULT_CHUNK_SIZE = 1024*1024` from cpool.h. -/
def DEFAULT_CHUNK_SIZE : Nat := 1024 * 1024

/-- State of a `warthog::memory::cchunk`: `obj_size_`, `pool_size_`, the
buffer base address `mem_`, the bump cursor `next_` (an address, as in the
source; `max_` is always `mem_ + pool_size_` so it is not stored), and the
freed-offset stack (head = most recently pushed entry). -/
structure cchunk where
  obj_size : Nat
  pool_size : Nat
  mem : Nat
  next : Nat
  freed_stack : List Nat
  deriving Repr, DecidableEq, Inhabited

/-- The `cchunk` constructor: `pool_size_` is the requested budget rounded
down to a multiple of `obj_size`, then corrected up to `obj_size` when the
rounded value is smaller than one object; `next_ = mem_`, empty stack.
`mem` is the symbolic base address of the `new char[pool_size_]` buffer. -/
def cchunk.init (obj_size pool_size mem : Nat) : cchunk :=
  let ps0 := pool_size - pool_size % obj_size
  let ps := if ps0 < obj_size then obj_size else ps0
  { obj_size := obj_size, pool_size := ps, mem := mem, next := mem,
    freed_stack := [] }

/-- Number of elements of the `freed_stack_` array allocated by the
`cchunk` constructor: `new size_t[(pool_size_ / obj_size)]`, where
`pool_size_` has already been rounded down and corrected up to at least
one object at that point of the constructor body. -/
def cchunk.freed_stack_cap (obj_size pool_size : Nat) : Nat :=
  let ps0 := pool_size - pool_size % obj_size
  let ps := if ps0 < obj_size then obj_size else ps0
  ps / obj_size

/-- `cchunk::reclaim()`: `next_ = mem_; stack_size_ = 0`. -/
def cchunk.reclaim (c : cchunk) : cchunk :=
  { c with next := c.mem, freed_stack := [] }

/-- `cchunk::allocate()`: if `next_ < max_` return `next_` and advance it by
`obj_size_`; else if the freed stack is non-empty pop it and return
`mem_ + freed_stack_[stack_size_]`; else return the null sentinel. -/
def cchunk.allocate (c : cchunk) : Option Nat × cchunk :=
  if c.next < c.mem + c.pool_size then
    (some c.next, { c with next := c.next + c.obj_size })
  else
    match c.freed_stack with
    | off :: rest => (some (c.mem + off), { c with freed_stack := rest })
    | [] => (none, c)

/-- `cchunk::deallocate(addr)`: push `(size_t)(addr - mem_)` onto the freed
stack.  For `addr ≥ mem_` (every address the contract allows) the `size_t`
difference equals the natural-number difference used here. -/
def cchunk.deallocate (c : cchunk) (addr : Nat) : cchunk :=
  { c with freed_stack := (addr - c.mem) :: c.freed_stack }

/-- `cchunk::contains(addr)` as compiled in release builds:
`(unsigned)(addr - mem_) < pool_size_`.  The pointer difference is a 64-bit
signed value, and the cast to `unsigned` truncates it modulo `2^32`. -/
def cchunk.contains (c : cchunk) (addr : Nat) : Bool :=
  (((addr : Int) - (c.mem : Int)) % (2 ^ 32 : Int)).toNat < c.pool_size

/-- The condition of the debug assertion `assert(mem_ >= addr)` that appears
in both `cchunk::deallocate` and `cchunk::contains`, exactly as written in
the source. -/
def cchunk.dealloc_assert (c : cchunk) (addr : Nat) : Prop :=
  c.mem ≥ addr

/-- The condition under which the debug range check of `cchunk::deallocate`
prints its "freeing memory outside range of the chunk" diagnostic:
`(size_t)(addr - mem_) >= pool_size_` (stated here for `addr ≥ mem_`, where
the `size_t` difference is the natural-number difference). -/
def cchunk.dealloc_report (c : cchunk) (addr : Nat) : Prop :=
  c.pool_size ≤ addr - c.mem

/-- `addr` lies within `[mem_, mem_ + pool_size_)`: the range a chunk's
buffer occupies. -/
def cchunk.in_range (c : cchunk) (addr : Nat) : Prop :=
  c.mem ≤ addr ∧ addr < c.mem + c.pool_size

instance (c : cchunk) (addr : Nat) : Decidable (c.in_range addr) := by
  unfold cchunk.in_range; infer_instance

instance (c : cchunk) (addr : Nat) : Decidable (c.dealloc_assert addr) := by
  unfold cchunk.dealloc_assert; infer_instance

instance (c : cchunk) (addr : Nat) : Decidable (c.dealloc_report addr) := by
  unfold cchunk.dealloc_report; infer_instance

/-- A failed `cchunk::allocate` (null return) leaves the chunk unchanged. -/
theorem cchunk.allocate_none_eq (c : cchunk) (h : c.allocate.1 = none) :
    c.allocate.2 = c := by
  unfold cchunk.allocate at *
  by_cases hb : c.next < c.mem + c.pool_size
  · simp [hb] at h
  · cases hs : c.freed_stack with
    | nil => simp [hb, hs]
    | cons off rest => simp [hb, hs] at h

/-- `cchunk.allocate` never changes `obj_size`, `pool_size` or `mem`. -/
theorem cchunk.allocate_preserves (c : cchunk) :
    c.allocate.2.obj_size = c.obj_size ∧ c.allocate.2.pool_size = c.pool_size ∧
      c.allocate.2.mem = c.mem := by
  unfold cchunk.allocate
  by_cases hb : c.next < c.mem + c.pool_size
  · simp [hb]
  · cases hs : c.freed_stack <;> simp [hb, hs]

/-- `cchunk.deallocate` never changes `obj_size`, `pool_size`, `mem` or
`next`. -/
theorem cchunk.deallocate_preserves (c : cchunk) (a : Nat) :
    (c.deallocate a).obj_size = c.obj_size ∧
      (c.deallocate a).pool_size = c.pool_size ∧
      (c.deallocate a).mem = c.mem ∧ (c.deallocate a).next = c.next := by
  unfold cchunk.deallocate; exact ⟨rfl, rfl, rfl, rfl⟩

/-- C3: `cchunk::allocate` first checks the bump cursor: while it is below
capacity the returned address is the cursor and the cursor advances by
exactly `obj_size_`; otherwise, if the freed-offset stack is non-empty, the
top offset is popped and the corresponding address `mem_ + offset` is
returned; otherwise the null sentinel (`none`) is returned and the chunk is
unchanged. -/
theorem c3_chunk_allocate_cases (c : cchunk) :
    (c.next < c.mem + c.pool_size →
      c.allocate = (some c.next, { c with next := c.next + c.obj_size }))
    ∧ (¬ c.next < c.mem + c.pool_size → ∀ off rest,
        c.freed_stack = off :: rest →
        c.allocate = (some (c.mem + off), { c with freed_stack := rest }))
    ∧ (¬ c.next < c.mem + c.pool_size → c.freed_stack = [] →
        c.allocate = (none, c)) := by
  refine ⟨fun h => ?_, fun h off rest hs => ?_, fun h hs => ?_⟩
  · simp [cchunk.allocate, h]
  · simp [cchunk.allocate, h, hs]
  · simp [cchunk.allocate, h, hs]

/-- Witness for C3 at a concrete chunk (obj 4, budget 8, base 100): the bump
branch fires and returns address 100, advancing the cursor to 104. -/
theorem c3_chunk_allocate_cases_witness :
    (cchunk.init 4 8 100).next <
        (cchunk.init 4 8 100).mem + (cchunk.init 4 8 100).pool_size ∧
      (cchunk.init 4 8 100).allocate =
        (some 100, { cchunk.init 4 8 100 with next := 104 }) := by
  have h := (c3_chunk_allocate_cases (cchunk.init 4 8 100)).1 (by decide)
  exact ⟨by decide, by rw [h]; decide⟩

/-- C4: from a chunk whose bump cursor has reached capacity, deallocating
address X and then address Y makes the next two allocations return Y then X
(LIFO reuse of freed slots). -/
theorem c4_lifo_reuse (c : cchunk) (X Y : Nat)
    (hfull : ¬ c.next < c.mem + c.pool_size)
    (hX : c.mem ≤ X) (hY : c.mem ≤ Y) :
    ((c.deallocate X).deallocate Y).allocate.1 = some Y ∧
      (((c.deallocate X).deallocate Y).allocate.2).allocate.1 = some X := by
  unfold cchunk.deallocate cchunk.allocate
  simp only [hfull, if_neg]
  constructor
  · simp [Nat.add_sub_cancel' hY]
  · simp [hfull, Nat.add_sub_cancel' hX]

/-- Witness for C4: chunk (obj 4, budget 8, base 0) with its cursor bumped to
capacity; freeing 0 then 4 makes the next two allocations return 4 then 0. -/
theorem c4_lifo_reuse_witness :
    (¬ ({ cchunk.init 4 8 0 with next := 8 } : cchunk).next <
        ({ cchunk.init 4 8 0 with next := 8 } : cchunk).mem +
          ({ cchunk.init 4 8 0 with next := 8 } : cchunk).pool_size) ∧
      ((({ cchunk.init 4 8 0 with next := 8 } : cchunk).deallocate
            0).deallocate 4).allocate.1 = some 4 ∧
      (((({ cchunk.init 4 8 0 with next := 8 } : cchunk).deallocate
            0).deallocate 4).allocate.2).allocate.1 = some 0 := by
  refine ⟨by decide, ?_⟩
  exact c4_lifo_reuse { cchunk.init 4 8 0 with next := 8 } 0 4
    (by decide) (by decide) (by decide)

/-- Helper: the bump branch of `cchunk::allocate`. -/
theorem cchunk.allocate_bump (c : cchunk) (h : c.next < c.mem + c.pool_size) :
    c.allocate = (some c.next, { c with next := c.next + c.obj_size }) := by
  simp [cchunk.allocate, h]

/-- Helper: the freed-stack pop branch of `cchunk::allocate`. -/
theorem cchunk.allocate_pop (c : cchunk) (h : ¬ c.next < c.mem + c.pool_size)
    (off rest : _) (hs : c.freed_stack = off :: rest) :
    c.allocate = (some (c.mem + off), { c with freed_stack := rest }) := by
  simp [cchunk.allocate, h, hs]

/-- Helper: the exhausted branch of `cchunk::allocate`. -/
theorem cchunk.allocate_exhausted (c : cchunk)
    (h : ¬ c.next < c.mem + c.pool_size) (hs : c.freed_stack = []) :
    c.allocate = (none, c) := by
  simp [cchunk.allocate, h, hs]

/-- Helper: for addresses at or above the buffer start and within `2^32` of
it, the release-build computation of `cchunk::contains` agrees with the
exact range test. -/
theorem cchunk.contains_iff (c : cchunk) (addr : Nat) (h1 : c.mem ≤ addr)
    (h2 : addr - c.mem < 2 ^ 32) :
    c.contains addr = true ↔ c.in_range addr := by
  unfold cchunk.contains cchunk.in_range
  have h3 : (addr : Int) - (c.mem : Int) = ((addr - c.mem : Nat) : Int) := by
    omega
  rw [h3, Int.emod_eq_of_lt (Int.natCast_nonneg _) (by exact_mod_cast h2)]
  simp only [decide_eq_true_eq, Int.toNat_natCast]
  omega

/-- C8 (code-bug evidence): the address 101 satisfies the stated
precondition of `cchunk::deallocate` for the chunk (obj 1, budget 2,
base 100) — it lies within `[mem_, mem_ + pool_size_)` — and the range
check correctly does not report, yet the debug assertion
`assert(mem_ >= addr)` is false there: the assertion is reversed and fails
for every in-range address other than the buffer start. -/
theorem c8_debug_assert_reversed :
    (cchunk.init 1 2 100).in_range 101 ∧
      ¬ (cchunk.init 1 2 100).dealloc_report 101 ∧
      ¬ (cchunk.init 1 2 100).dealloc_assert 101 := by
  refine ⟨⟨by decide, by decide⟩, by decide, by decide⟩

/-- C9 (counterexample): for the chunk (obj 16, budget 64, base 0), the
address `2^32` is far outside the buffer range `[0, 64)`, yet
`cchunk::contains` returns true for it: the cast of the pointer difference
to 32-bit `unsigned` wraps `2^32` to `0`. -/
theorem c9_contains_truncation_cex :
    (cchunk.init 16 64 0).contains (2 ^ 32) = true ∧
      ¬ (cchunk.init 16 64 0).in_range (2 ^ 32) := by
  refine ⟨by decide, by decide⟩

/-- C10 (counterexample): for a chunk requested with slot size 16 and byte
budget 8, the claim computes the freed-stack length as
`floor(requested/slot) = 8/16 = 0`, but the constructor allocates
`pool_size_/obj_size = 1` entries (it divides the corrected capacity, not
the requested budget); the first allocate returns the (then live) address
0, and deallocating it writes at stack index 0, which is not strictly below
the claimed length 0. -/
theorem c10_precorrection_cap_cex :
    (cchunk.init 16 8 0).allocate.1 = some 0 ∧
      ((cchunk.init 16 8 0).allocate.2).freed_stack.length = 0 ∧
      ¬ ((cchunk.init 16 8 0).allocate.2).freed_stack.length < 8 / 16 ∧
      cchunk.freed_stack_cap 16 8 = 1 := by
  refine ⟨by decide, by decide, by decide, by decide⟩

/-! ### Single-arena call traces

Operations a caller can perform on one `cchunk`; an `alloc` records the
returned address as live, a `dealloc` of a live address removes it.  `cok`
singles out the traces that respect ownership: every `deallocate` frees an
address previously returned by this chunk's `allocate` and not already
deallocated. -/

/-- One call on a single chunk. -/
inductive cop where
  | alloc : cop
  | dealloc (addr : Nat) : cop
  deriving Repr, DecidableEq

/-- Execute one call on a chunk, tracking the set of live addresses. -/
def cstep : cchunk × Finset Nat → cop → cchunk × Finset Nat
  | (c, live), cop.alloc =>
    match c.allocate with
    | (some a, c') => (c', insert a live)
    | (none, c') => (c', live)
  | (c, live), cop.dealloc a => (c.deallocate a, live.erase a)

/-- Execute a trace of calls on a chunk. -/
def crun (s : cchunk × Finset Nat) (ops : List cop) : cchunk × Finset Nat :=
  ops.foldl cstep s

/-- Ownership-respecting traces: each `dealloc` frees a live address. -/
inductive cok : cchunk × Finset Nat → List cop → Prop
  | nil (s : cchunk × Finset Nat) : cok s []
  | alloc (s : cchunk × Finset Nat) (ops : List cop) :
      cok (cstep s cop.alloc) ops → cok s (cop.alloc :: ops)
  | dealloc (s : cchunk × Finset Nat) (a : Nat) (ops : List cop) :
      a ∈ s.2 → cok (cstep s (cop.dealloc a)) ops →
      cok s (cop.dealloc a :: ops)

/-- Invariant tying a chunk's state to the set of its live addresses:
the cursor stays aligned and within bounds, freed-stack entries are
distinct dead aligned slots below the cursor, live addresses are aligned
slots below the cursor absent from the freed stack, and live count plus
stack depth equals the number of slots the cursor has passed. -/
structure cchunkInvC (c : cchunk) (live : Finset Nat) : Prop where
  hobj : 0 < c.obj_size
  hPS : c.obj_size ≤ c.pool_size
  hdivP : c.obj_size ∣ c.pool_size
  hmemnext : c.mem ≤ c.next
  hnextP : c.next ≤ c.mem + c.pool_size
  hdivnext : c.obj_size ∣ (c.next - c.mem)
  hstack : ∀ off ∈ c.freed_stack,
      off < c.next - c.mem ∧ c.obj_size ∣ off ∧ (c.mem + off) ∉ live
  hnodup : c.freed_stack.Nodup
  hlive : ∀ a ∈ live, c.in_range a →
      a < c.next ∧ c.obj_size ∣ (a - c.mem) ∧ (a - c.mem) ∉ c.freed_stack
  hown : ∀ a ∈ live, c.in_range a
  hcount : live.card + c.freed_stack.length = (c.next - c.mem) / c.obj_size

/-- Helper: two multiples of `k` that are strictly ordered are at least `k`
apart. -/
theorem add_dvd_le {k a b : Nat} (ha : k ∣ a) (hb : k ∣ b) (h : a < b) :
    a + k ≤ b := by
  have hd : k ∣ b - a := Nat.dvd_sub' hb ha
  have hk : k ≤ b - a := Nat.le_of_dvd (by omega) hd
  omega

theorem cchunk.init_obj_size (S B mem : Nat) :
    (cchunk.init S B mem).obj_size = S := rfl

theorem cchunk.init_mem (S B mem : Nat) : (cchunk.init S B mem).mem = mem :=
  rfl

theorem cchunk.init_next (S B mem : Nat) : (cchunk.init S B mem).next = mem :=
  rfl

theorem cchunk.init_freed_stack (S B mem : Nat) :
    (cchunk.init S B mem).freed_stack = [] := rfl

theorem cchunk.init_pool_size (S B mem : Nat) :
    (cchunk.init S B mem).pool_size =
      if B - B % S < S then S else B - B % S := rfl

/-- The corrected capacity is at least one object and a multiple of the
object size. -/
theorem cchunk.init_pool_size_facts (S B mem : Nat) :
    S ≤ (cchunk.init S B mem).pool_size ∧
      S ∣ (cchunk.init S B mem).pool_size := by
  rw [cchunk.init_pool_size]
  have hdvd : S ∣ B - B % S := ⟨B / S, by have := Nat.div_add_mod B S; omega⟩
  constructor
  · split <;> omega
  · split
    · exact dvd_refl S
    · exact hdvd

/-- The constructor establishes the single-chunk invariant with no live
addresses. -/
theorem cchunkInvC_init (S B mem : Nat) (hS : 0 < S) :
    cchunkInvC (cchunk.init S B mem) ∅ := by
  obtain ⟨hle, hdvd⟩ := cchunk.init_pool_size_facts S B mem
  refine ⟨hS, ?_, ?_, ?_, ?_, ?_, ?_, ?_, ?_, ?_, ?_⟩
  · exact hle
  · exact hdvd
  · rw [cchunk.init_mem, cchunk.init_next]
  · rw [cchunk.init_mem, cchunk.init_next]; exact Nat.le_add_right _ _
  · rw [cchunk.init_mem, cchunk.init_next, cchunk.init_obj_size]
    simp
  · intro off hoff
    rw [cchunk.init_freed_stack] at hoff
    exact absurd hoff (List.not_mem_nil off)
  · rw [cchunk.init_freed_stack]; exact List.nodup_nil
  · intro a ha; exact absurd ha (Finset.not_mem_empty a)
  · intro a ha; exact absurd ha (Finset.not_mem_empty a)
  · rw [cchunk.init_freed_stack, cchunk.init_mem, cchunk.init_next]
    simp


/-- Ownership-respecting bump allocation preserves the invariant. -/
theorem cchunkInvC_bump (c : cchunk) (live : Finset Nat)
    (h : cchunkInvC c live) (hb : c.next < c.mem + c.pool_size) :
    cchunkInvC { c with next := c.next + c.obj_size } (insert c.next live) := by
  obtain ⟨hobj, hPS, hdivP, hmemnext, hnextP, hdivnext, hstack, hnodup,
    hlive, hown, hcount⟩ := h
  have hfresh : c.next ∉ live := fun hmem =>
    absurd (hlive c.next hmem ⟨hmemnext, hb⟩).1 (lt_irrefl _)
  have hgap : c.next - c.mem + c.obj_size ≤ c.pool_size :=
    add_dvd_le hdivnext hdivP (by omega)
  have hstep2 : (c.next + c.obj_size) - c.mem =
      (c.next - c.mem) + c.obj_size := by omega
  refine ⟨hobj, hPS, hdivP, ?_, ?_, ?_, ?_, hnodup, ?_, ?_, ?_⟩
  · dsimp only; omega
  · dsimp only; omega
  · dsimp only
    rw [hstep2]
    exact Nat.dvd_add hdivnext dvd_rfl
  · intro off hoff
    dsimp only at hoff ⊢
    obtain ⟨h1, h2, h3⟩ := hstack off hoff
    refine ⟨by omega, h2, ?_⟩
    rw [Finset.mem_insert]
    push_neg
    exact ⟨by omega, h3⟩
  · intro a ha hin
    dsimp only
    rw [Finset.mem_insert] at ha
    have hin' : c.in_range a := by
      obtain ⟨hx, hy⟩ := hin
      dsimp only at hx hy
      exact ⟨hx, by omega⟩
    rcases ha with rfl | ha
    · refine ⟨by omega, hdivnext, fun hmem => ?_⟩
      exact absurd (hstack _ hmem).1 (by omega)
    · obtain ⟨h1, h2, h3⟩ := hlive a ha hin'
      exact ⟨by omega, h2, h3⟩
  · intro a ha
    rw [Finset.mem_insert] at ha
    rcases ha with rfl | ha
    · exact ⟨hmemnext, by dsimp only; omega⟩
    · obtain ⟨h1, h2⟩ := hown a ha
      exact ⟨h1, by dsimp only; omega⟩
  · dsimp only
    rw [Finset.card_insert_of_not_mem hfresh, hstep2,
      Nat.add_div_right _ hobj]
    omega

/-- Ownership-respecting pop allocation preserves the invariant. -/
theorem cchunkInvC_pop (c : cchunk) (live : Finset Nat) (off : Nat)
    (rest : List Nat) (h : cchunkInvC c live) (hs : c.freed_stack = off :: rest) :
    cchunkInvC { c with freed_stack := rest } (insert (c.mem + off) live) := by
  obtain ⟨hobj, hPS, hdivP, hmemnext, hnextP, hdivnext, hstack, hnodup,
    hlive, hown, hcount⟩ := h
  obtain ⟨hoff1, hoff2, hoff3⟩ := hstack off (by rw [hs]; simp)
  have hoffrest : off ∉ rest := by
    rw [hs] at hnodup
    exact (List.nodup_cons.1 hnodup).1
  refine ⟨hobj, hPS, hdivP, hmemnext, hnextP, hdivnext, ?_, ?_, ?_, ?_, ?_⟩
  · intro off' hoff'
    dsimp only at hoff' ⊢
    obtain ⟨h1, h2, h3⟩ := hstack off' (by rw [hs]; simp [hoff'])
    refine ⟨h1, h2, ?_⟩
    rw [Finset.mem_insert]
    push_neg
    refine ⟨fun heq => ?_, h3⟩
    have he : off' = off := by omega
    exact hoffrest (he ▸ hoff')
  · dsimp only
    rw [hs] at hnodup
    exact (List.nodup_cons.1 hnodup).2
  · intro a ha hin
    dsimp only at hin ⊢
    rw [Finset.mem_insert] at ha
    rcases ha with rfl | ha
    · have he : c.mem + off - c.mem = off := by omega
      refine ⟨by omega, ?_, ?_⟩
      · rw [he]; exact hoff2
      · rw [he]; exact hoffrest
    · obtain ⟨h1, h2, h3⟩ := hlive a ha hin
      refine ⟨h1, h2, fun hmem => h3 (by rw [hs]; simp [hmem])⟩
  · intro a ha
    dsimp only
    rw [Finset.mem_insert] at ha
    rcases ha with rfl | ha
    · refine ⟨Nat.le_add_right _ _, ?_⟩
      show c.mem + off < c.mem + c.pool_size
      omega
    · exact hown a ha
  · dsimp only
    rw [Finset.card_insert_of_not_mem hoff3]
    rw [hs] at hcount
    simp only [List.length_cons] at hcount
    omega

/-- Ownership-respecting deallocation preserves the invariant. -/
theorem cchunkInvC_dealloc (c : cchunk) (live : Finset Nat) (a : Nat)
    (h : cchunkInvC c live) (ha : a ∈ live) :
    cchunkInvC (c.deallocate a) (live.erase a) := by
  obtain ⟨hobj, hPS, hdivP, hmemnext, hnextP, hdivnext, hstack, hnodup,
    hlive, hown, hcount⟩ := h
  have hinr : c.in_range a := hown a ha
  obtain ⟨hanext, hadiv, hastack⟩ := hlive a ha hinr
  obtain ⟨hmema, haP⟩ := hinr
  have hsub : c.mem + (a - c.mem) = a := by omega
  unfold cchunk.deallocate
  refine ⟨hobj, hPS, hdivP, hmemnext, hnextP, hdivnext, ?_, ?_, ?_, ?_, ?_⟩
  · intro off hoff
    dsimp only at hoff ⊢
    rw [List.mem_cons] at hoff
    rcases hoff with rfl | hoff
    · refine ⟨by omega, hadiv, ?_⟩
      rw [hsub]
      exact Finset.not_mem_erase a live
    · obtain ⟨h1, h2, h3⟩ := hstack off hoff
      exact ⟨h1, h2, fun hmem => h3 (Finset.erase_subset a live hmem)⟩
  · dsimp only
    exact List.nodup_cons.2 ⟨hastack, hnodup⟩
  · intro b hbm hin
    dsimp only at hin ⊢
    obtain ⟨hbne, hbl⟩ := Finset.mem_erase.1 hbm
    obtain ⟨h1, h2, h3⟩ := hlive b hbl hin
    refine ⟨h1, h2, ?_⟩
    rw [List.mem_cons]
    push_neg
    refine ⟨?_, h3⟩
    obtain ⟨hmemb, _⟩ := hown b hbl
    omega
  · intro b hbm
    dsimp only
    exact hown b (Finset.mem_erase.1 hbm).2
  · dsimp only
    rw [List.length_cons, Finset.card_erase_of_mem ha]
    have hpos : 0 < live.card := Finset.card_pos.2 ⟨a, ha⟩
    omega

/-- One ownership-respecting call preserves the single-chunk invariant. -/
theorem cchunkInvC_step (c : cchunk) (live : Finset Nat) (op : cop)
    (h : cchunkInvC c live) (hop : ∀ a, op = cop.dealloc a → a ∈ live) :
    cchunkInvC (cstep (c, live) op).1 (cstep (c, live) op).2 := by
  cases op with
  | alloc =>
    by_cases hb : c.next < c.mem + c.pool_size
    · have hstep : cstep (c, live) cop.alloc =
          ({ c with next := c.next + c.obj_size }, insert c.next live) := by
        simp [cstep, cchunk.allocate_bump c hb]
      rw [hstep]
      exact cchunkInvC_bump c live h hb
    · cases hs : c.freed_stack with
      | cons off rest =>
        have hstep : cstep (c, live) cop.alloc =
            ({ c with freed_stack := rest }, insert (c.mem + off) live) := by
          simp [cstep, cchunk.allocate_pop c hb off rest hs]
        rw [hstep]
        exact cchunkInvC_pop c live off rest h hs
      | nil =>
        have hstep : cstep (c, live) cop.alloc = (c, live) := by
          simp [cstep, cchunk.allocate_exhausted c hb hs]
        rw [hstep]
        exact h
  | dealloc a =>
    have ha : a ∈ live := hop a rfl
    have hstep : cstep (c, live) (cop.dealloc a) =
        (c.deallocate a, live.erase a) := rfl
    rw [hstep]
    exact cchunkInvC_dealloc c live a h ha

/-- The invariant holds after every ownership-respecting trace. -/
theorem cchunkInvC_run (s : cchunk × Finset Nat) (ops : List cop)
    (h : cchunkInvC s.1 s.2) (hok : cok s ops) :
    cchunkInvC (crun s ops).1 (crun s ops).2 := by
  induction hok with
  | nil s => exact h
  | alloc s ops _ ih =>
    exact ih (cchunkInvC_step s.1 s.2 cop.alloc h (by intro a h'; cases h'))
  | dealloc s a ops ha _ ih =>
    exact ih (cchunkInvC_step s.1 s.2 (cop.dealloc a) h
      (by intro b h'; cases h'; exact ha))

/-- The chunk produced by an `alloc` step is the chunk `cchunk::allocate`
leaves behind, whether or not the allocation succeeded. -/
theorem cstep_alloc_chunk (c : cchunk) (live : Finset Nat) :
    (cstep (c, live) cop.alloc).1 = c.allocate.2 := by
  simp only [cstep]
  rcases h : c.allocate with ⟨r, c'⟩
  cases r <;> simp [h]

/-- No call changes a chunk's `obj_size`, `pool_size` or `mem`. -/
theorem cstep_preserves_shape (s : cchunk × Finset Nat) (op : cop) :
    (cstep s op).1.obj_size = s.1.obj_size ∧
      (cstep s op).1.pool_size = s.1.pool_size ∧
      (cstep s op).1.mem = s.1.mem := by
  rcases s with ⟨c, live⟩
  cases op with
  | alloc =>
    rw [cstep_alloc_chunk]
    exact cchunk.allocate_preserves c
  | dealloc a => exact ⟨rfl, rfl, rfl⟩

/-- No trace changes a chunk's `obj_size`, `pool_size` or `mem`. -/
theorem crun_preserves_shape (s : cchunk × Finset Nat) (ops : List cop) :
    (crun s ops).1.obj_size = s.1.obj_size ∧
      (crun s ops).1.pool_size = s.1.pool_size ∧
      (crun s ops).1.mem = s.1.mem := by
  induction ops generalizing s with
  | nil => exact ⟨rfl, rfl, rfl⟩
  | cons op rest ih =>
    obtain ⟨h1, h2, h3⟩ := ih (cstep s op)
    obtain ⟨g1, g2, g3⟩ := cstep_preserves_shape s op
    exact ⟨h1.trans g1, h2.trans g2, h3.trans g3⟩

/-- The corrected capacity divided by the slot size is `max (B / S) 1`. -/
theorem cchunk.init_pool_size_div (S B mem : Nat) (hS : 0 < S) :
    (cchunk.init S B mem).pool_size / S = max (B / S) 1 := by
  rw [cchunk.init_pool_size]
  have hmod : B - B % S = S * (B / S) := by
    have := Nat.div_add_mod B S
    omega
  rcases Nat.eq_zero_or_pos (B / S) with h0 | h1
  · have hlt : B - B % S < S := by
      rw [hmod, h0]
      simpa using hS
    rw [if_pos hlt, Nat.div_self hS, h0]
    rfl
  · have hge : ¬ B - B % S < S := by
      have : S * 1 ≤ S * (B / S) := Nat.mul_le_mul_left S h1
      omega
    rw [if_neg hge, hmod, Nat.mul_div_cancel_left _ hS]
    exact (Nat.max_eq_left h1).symm

/-- A trace that is ownership-respecting decomposes: its prefix is
ownership-respecting, and so is its suffix from the intermediate state. -/
theorem cok_append (s : cchunk × Finset Nat) (t1 t2 : List cop)
    (h : cok s (t1 ++ t2)) : cok s t1 ∧ cok (crun s t1) t2 := by
  induction t1 generalizing s with
  | nil => exact ⟨cok.nil s, h⟩
  | cons op rest ih =>
    cases h with
    | alloc _ _ h' =>
      obtain ⟨ha, hb⟩ := ih (cstep s cop.alloc) h'
      exact ⟨cok.alloc s rest ha, hb⟩
    | dealloc _ a _ hmem h' =>
      obtain ⟨ha, hb⟩ := ih (cstep s (cop.dealloc a)) h'
      exact ⟨cok.dealloc s a rest hmem ha, hb⟩

/-- C5: for an arena constructed with byte budget B and slot size S, no
ownership-respecting sequence of allocate/deallocate calls ever has more
than `floor(B/S)` (or 1, when that is zero) simultaneously live slots. -/
theorem c5_capacity_invariant (S B mem : Nat) (hS : 0 < S) (ops : List cop)
    (hok : cok (cchunk.init S B mem, ∅) ops) :
    (crun (cchunk.init S B mem, ∅) ops).2.card ≤ max (B / S) 1 := by
  have hinv := cchunkInvC_run (cchunk.init S B mem, ∅) ops
    (cchunkInvC_init S B mem hS) hok
  obtain ⟨hsh1, hsh2, _⟩ := crun_preserves_shape (cchunk.init S B mem, ∅) ops
  have hsh1' : (crun (cchunk.init S B mem, ∅) ops).1.obj_size = S := hsh1
  have hsh2' : (crun (cchunk.init S B mem, ∅) ops).1.pool_size =
      (cchunk.init S B mem).pool_size := hsh2
  have hcount := hinv.hcount
  have hnextP := hinv.hnextP
  have hmemnext := hinv.hmemnext
  have hd : ((crun (cchunk.init S B mem, ∅) ops).1.next -
        (crun (cchunk.init S B mem, ∅) ops).1.mem) /
        (crun (cchunk.init S B mem, ∅) ops).1.obj_size ≤
      (crun (cchunk.init S B mem, ∅) ops).1.pool_size /
        (crun (cchunk.init S B mem, ∅) ops).1.obj_size :=
    Nat.div_le_div_right (by omega)
  rw [hsh1', hsh2', cchunk.init_pool_size_div S B mem hS] at hd
  rw [hsh1'] at hcount
  omega

/-- Witness for C5: after the single-allocation trace on the arena
(obj 1, budget 1, base 0) the live count, 1, is within the bound. -/
theorem c5_capacity_invariant_witness :
    0 < 1 ∧ (crun (cchunk.init 1 1 0, ∅) [cop.alloc]).2.card ≤ max (1 / 1) 1 :=
  ⟨by decide, c5_capacity_invariant 1 1 0 (by decide) [cop.alloc]
    (cok.alloc _ _ (cok.nil _))⟩

/-- C10 (amended): under the per-arena ownership discipline, every write
into the freed-offset stack lands at an index (the stack depth at the
moment of the deallocate) strictly below the stack's allocated length,
which the constructor computes as the corrected capacity — after the
round-down and the minimum-one-slot correction — divided by the slot size. -/
theorem c10_stack_writes_in_bounds (S B mem a : Nat) (hS : 0 < S)
    (ops : List cop)
    (hok : cok (cchunk.init S B mem, ∅) (ops ++ [cop.dealloc a])) :
    (crun (cchunk.init S B mem, ∅) ops).1.freed_stack.length <
      cchunk.freed_stack_cap S B := by
  obtain ⟨h1, h2⟩ := cok_append _ ops [cop.dealloc a] hok
  have hinv := cchunkInvC_run (cchunk.init S B mem, ∅) ops
    (cchunkInvC_init S B mem hS) h1
  have hmem : a ∈ (crun (cchunk.init S B mem, ∅) ops).2 := by
    cases h2 with
    | dealloc _ _ _ hmem _ => exact hmem
  obtain ⟨hsh1, hsh2, _⟩ := crun_preserves_shape (cchunk.init S B mem, ∅) ops
  have hsh1' : (crun (cchunk.init S B mem, ∅) ops).1.obj_size = S := hsh1
  have hsh2' : (crun (cchunk.init S B mem, ∅) ops).1.pool_size =
      (cchunk.init S B mem).pool_size := hsh2
  have hcap : cchunk.freed_stack_cap S B =
      (cchunk.init S B mem).pool_size / S := rfl
  have hcard : 0 < (crun (cchunk.init S B mem, ∅) ops).2.card :=
    Finset.card_pos.2 ⟨a, hmem⟩
  have hcount := hinv.hcount
  have hnextP := hinv.hnextP
  have hmemnext := hinv.hmemnext
  have hd : ((crun (cchunk.init S B mem, ∅) ops).1.next -
        (crun (cchunk.init S B mem, ∅) ops).1.mem) /
        (crun (cchunk.init S B mem, ∅) ops).1.obj_size ≤
      (crun (cchunk.init S B mem, ∅) ops).1.pool_size /
        (crun (cchunk.init S B mem, ∅) ops).1.obj_size :=
    Nat.div_le_div_right (by omega)
  rw [hsh1', hsh2'] at hd
  rw [hsh1'] at hcount
  rw [hcap]
  omega

/-- Witness for C10 (amended): on the arena (obj 1, budget 2, base 0), after
one allocation the deallocate of the live address 0 writes at stack index 0,
strictly below the allocated stack length 2. -/
theorem c10_stack_writes_in_bounds_witness :
    0 < 1 ∧ (crun (cchunk.init 1 2 0, ∅) [cop.alloc]).1.freed_stack.length <
      cchunk.freed_stack_cap 1 2 :=
  ⟨by decide, c10_stack_writes_in_bounds 1 2 0 0 (by decide) [cop.alloc]
    (cok.alloc _ _ (cok.dealloc _ 0 _ (by decide) (cok.nil _)))⟩

/-- `cchunk::first_addr()`: the buffer base. -/
def cchunk.first_addr (c : cchunk) : Nat := c.mem

/-! ### The pool manager `cpool` -/

/-- State of a `warthog::memory::cpool`: `chunks_[0 .. num_chunks_)` (so
`num_chunks_` is `chunks.length`), the index of `current_chunk_`, and the
`max_chunks_`, `obj_size_` and `CHUNK_SIZE_` members. -/
structure cpool where
  chunks : List cchunk
  current : Nat
  max_chunks : Nat
  obj_size : Nat
  CHUNK_SIZE : Nat
  deriving Repr, DecidableEq, Inhabited

/-- `cpool::add_chunk(pool_size)`: if there is room, append a chunk;
otherwise first double `max_chunks_` and move the chunk pointers into the
bigger backing array (pure bookkeeping here), then append.  `base` is the
symbolic buffer address of the `new cchunk`. -/
def cpool.add_chunk (p : cpool) (pool_size base : Nat) : cpool :=
  if p.chunks.length < p.max_chunks then
    { p with chunks := p.chunks ++ [cchunk.init p.obj_size pool_size base] }
  else
    { p with max_chunks := p.max_chunks * 2,
             chunks := p.chunks ++ [cchunk.init p.obj_size pool_size base] }

/-- `cpool::init()`: `CHUNK_SIZE_ = max(obj_size_, DEFAULT_CHUNK_SIZE)`,
then `add_chunk(CHUNK_SIZE_)` once per loop iteration and make chunk 0
current.  The C++ loop runs `max_chunks_` times; here it is driven by
`bases`, the list of buffer base addresses the system allocator hands each
chunk, whose length well-formed uses equate with `max_chunks`. -/
def cpool.init (obj_size max_chunks : Nat) (bases : List Nat) : cpool :=
  let CS := max obj_size DEFAULT_CHUNK_SIZE
  let p0 : cpool :=
    { chunks := [], current := 0, max_chunks := max_chunks,
      obj_size := obj_size, CHUNK_SIZE := CS }
  let p1 := bases.foldl (fun p b => p.add_chunk p.CHUNK_SIZE b) p0
  { p1 with current := 0 }

/-- `cpool::reclaim()`: reclaim every chunk. -/
def cpool.reclaim (p : cpool) : cpool :=
  { p with chunks := p.chunks.map cchunk.reclaim }

/-- The linear search loop of `cpool::allocate`: try each chunk in
insertion order; on the first success return the address, the index of the
successful chunk, and the chunk list with it updated.  A failed
`cchunk::allocate` returns the chunk unchanged (`allocate_none_eq`), so
keeping the returned state in place is faithful in both branches. -/
def cpool.scan : List cchunk → Option (Nat × Nat × List cchunk)
  | [] => none
  | c :: rest =>
    match c.allocate with
    | (some a, c') => some (a, 0, c' :: rest)
    | (none, c') =>
      match cpool.scan rest with
      | some (a, j, rest') => some (a, j + 1, c' :: rest')
      | none => none

/-- `cpool::allocate()`: try the current chunk; on a null return scan all
chunks in insertion order, making the first chunk with space current; if
none has space, `add_chunk(CHUNK_SIZE_)`, make the new last chunk current
and allocate from it.  `base` is the buffer address the system allocator
would give a newly created chunk (used only on the growth path). -/
def cpool.allocate (p : cpool) (base : Nat) : Option Nat × cpool :=
  match (p.chunks.getD p.current default).allocate with
  | (some a, c') => (some a, { p with chunks := p.chunks.set p.current c' })
  | (none, _) =>
    match cpool.scan p.chunks with
    | some (a, j, chunks') =>
      (some a, { p with chunks := chunks', current := j })
    | none =>
      match ((p.add_chunk p.CHUNK_SIZE base).chunks.getD
          ((p.add_chunk p.CHUNK_SIZE base).chunks.length - 1) default).allocate with
      | (r, c3) =>
        (r, { p.add_chunk p.CHUNK_SIZE base with
              chunks := (p.add_chunk p.CHUNK_SIZE base).chunks.set
                ((p.add_chunk p.CHUNK_SIZE base).chunks.length - 1) c3,
              current := (p.add_chunk p.CHUNK_SIZE base).chunks.length - 1 })

/-- The routing loop of `cpool::deallocate`: find the first chunk whose
containment test `(unsigned)(addr - first_addr()) < pool_size()` accepts
the address and push the offset onto that chunk's freed stack. -/
def cpool.dealloc_scan (addr : Nat) : List cchunk → Option (List cchunk)
  | [] => none
  | c :: rest =>
    if c.contains addr then some (c.deallocate addr :: rest)
    else
      match cpool.dealloc_scan addr rest with
      | some rest' => some (c :: rest')
      | none => none

/-- `cpool::deallocate(addr)`: route to the first chunk whose containment
test claims `addr`; when none does, the pool is unchanged and (in debug
builds) the "tried to free an address not in any chunk" diagnostic is
printed — the boolean records that this diagnostic fired. -/
def cpool.deallocate (p : cpool) (addr : Nat) : Bool × cpool :=
  match cpool.dealloc_scan addr p.chunks with
  | some chunks' => (false, { p with chunks := chunks' })
  | none => (true, p)

/-- C6: after `cpool::reclaim()` every chunk's bump cursor is back at the
start of its buffer and its freed-offset stack is empty (all previously
freed offsets are discarded, so none can ever be popped); hence the next
`allocate()` on each chunk with non-zero capacity returns that chunk's very
first slot address (`first_addr`) again, by bump allocation. -/
theorem c6_reclaim_resets (p : cpool) :
    ∀ c ∈ (p.reclaim).chunks,
      c.next = c.mem ∧ c.freed_stack = [] ∧
        (0 < c.pool_size →
          c.allocate = (some c.first_addr,
            { c with next := c.mem + c.obj_size })) := by
  intro c hc
  simp only [cpool.reclaim, List.mem_map] at hc
  obtain ⟨c0, hc0, rfl⟩ := hc
  refine ⟨rfl, rfl, fun hpos => ?_⟩
  have hpos' : 0 < c0.pool_size := hpos
  have hb : (c0.reclaim).next < (c0.reclaim).mem + (c0.reclaim).pool_size := by
    show c0.mem < c0.mem + c0.pool_size
    omega
  have h := cchunk.allocate_bump (c0.reclaim) hb
  rw [h]
  rfl

/-- Witness for C6: reclaiming the freshly initialised one-chunk pool with
slot size 1 and then allocating from its chunk returns the chunk's first
address. -/
theorem c6_reclaim_resets_witness :
    (cchunk.init 1 (max 1 DEFAULT_CHUNK_SIZE) 0).reclaim ∈
        ((cpool.init 1 1 [0]).reclaim).chunks ∧
      0 < (cchunk.init 1 (max 1 DEFAULT_CHUNK_SIZE) 0).reclaim.pool_size ∧
      ((cchunk.init 1 (max 1 DEFAULT_CHUNK_SIZE) 0).reclaim.allocate).1 =
        some ((cchunk.init 1 (max 1 DEFAULT_CHUNK_SIZE) 0).reclaim.first_addr) := by
  have hm : (cchunk.init 1 (max 1 DEFAULT_CHUNK_SIZE) 0).reclaim ∈
      ((cpool.init 1 1 [0]).reclaim).chunks := by decide
  have h := c6_reclaim_resets (cpool.init 1 1 [0]) _ hm
  refine ⟨hm, by decide, ?_⟩
  rw [h.2.2 (by decide)]

/-- Helper: when no chunk's containment test claims the address, the
routing loop finds nothing. -/
theorem cpool.dealloc_scan_none (addr : Nat) (cs : List cchunk)
    (h : ∀ c ∈ cs, c.contains addr = false) :
    cpool.dealloc_scan addr cs = none := by
  induction cs with
  | nil => rfl
  | cons c rest ih =>
    have hc : c.contains addr = false := h c (by simp)
    have hrest := ih (fun d hd => h d (by simp [hd]))
    simp [cpool.dealloc_scan, hc, hrest]

/-- C7 (amended): deallocating an address that no chunk's containment test
claims emits the debug diagnostic and is a safe no-op — the pool state is
unchanged.  (Double-freeing an owned slot, by contrast, is not detected:
the owning chunk pushes the offset onto its freed stack a second time, so
that call does change arena state; see the counterexample.) -/
theorem c7_deallocate_unowned_noop (p : cpool) (addr : Nat)
    (h : ∀ c ∈ p.chunks, c.contains addr = false) :
    p.deallocate addr = (true, p) := by
  unfold cpool.deallocate
  rw [cpool.dealloc_scan_none addr p.chunks h]

/-- Witness for C7 (amended): on the one-chunk pool with slot size 1
(buffer `[0, 2^20)`), deallocating the unowned address `2^20` is reported
and leaves the pool unchanged. -/
theorem c7_deallocate_unowned_noop_witness :
    (∀ c ∈ (cpool.init 1 1 [0]).chunks, c.contains (2 ^ 20) = false) ∧
      (cpool.init 1 1 [0]).deallocate (2 ^ 20) = (true, cpool.init 1 1 [0]) := by
  have h : ∀ c ∈ (cpool.init 1 1 [0]).chunks, c.contains (2 ^ 20) = false := by
    decide
  exact ⟨h, c7_deallocate_unowned_noop (cpool.init 1 1 [0]) (2 ^ 20) h⟩

/-- C7 (counterexample): on the one-chunk pool with slot size 1, allocate
address 0, deallocate it, then deallocate it again.  The second deallocate
is a double-free, which the claim says is detected, reported and a safe
no-op; in fact no diagnostic fires and the pool state changes (the offset 0
is pushed onto the freed stack a second time). -/
theorem c7_double_free_not_detected_cex :
    ((((cpool.init 1 1 [0]).allocate 0).2.deallocate 0).2.deallocate 0).1 =
        false ∧
      ((((cpool.init 1 1 [0]).allocate 0).2.deallocate 0).2.deallocate 0).2 ≠
        (((cpool.init 1 1 [0]).allocate 0).2.deallocate 0).2 := by
  refine ⟨by decide, by decide⟩

/-! ### List index helpers (with the `Inhabited cchunk` default) -/

theorem getD_set_self (l : List cchunk) (i : Nat) (c : cchunk)
    (h : i < l.length) : (l.set i c).getD i default = c := by
  induction l generalizing i with
  | nil => simp at h
  | cons x xs ih =>
    cases i with
    | zero => rfl
    | succ i' => simpa using ih i' (by simpa using h)

theorem getD_set_ne (l : List cchunk) (i j : Nat) (c : cchunk) (h : i ≠ j) :
    (l.set i c).getD j default = l.getD j default := by
  induction l generalizing i j with
  | nil => rfl
  | cons x xs ih =>
    cases i with
    | zero =>
      cases j with
      | zero => exact absurd rfl h
      | succ j' => rfl
    | succ i' =>
      cases j with
      | zero => rfl
      | succ j' => simpa using ih i' j' (by omega)

theorem getD_append_lt (l l2 : List cchunk) (i : Nat) (h : i < l.length) :
    (l ++ l2).getD i default = l.getD i default := by
  induction l generalizing i with
  | nil => simp at h
  | cons x xs ih =>
    cases i with
    | zero => rfl
    | succ i' => simpa using ih i' (by simpa using h)

theorem getD_append_len (l : List cchunk) (x : cchunk) :
    (l ++ [x]).getD l.length default = x := by
  induction l with
  | nil => rfl
  | cons y ys ih => simp only [List.cons_append, List.length_cons,
      List.getD_cons_succ]; exact ih

theorem set_append_len (l : List cchunk) (x y : cchunk) :
    (l ++ [x]).set l.length y = l ++ [y] := by
  induction l with
  | nil => rfl
  | cons z zs ih => simp [ih]

theorem getD_mem (l : List cchunk) (i : Nat) (h : i < l.length) :
    l.getD i default ∈ l := by
  induction l generalizing i with
  | nil => simp at h
  | cons x xs ih =>
    cases i with
    | zero => exact List.mem_cons_self x xs
    | succ i' => exact List.mem_cons_of_mem x (ih i' (by simpa using h))

/-! ### Characterising the linear search of `cpool::allocate` -/

/-- When every chunk's allocate fails, the scan finds nothing. -/
theorem cpool.scan_eq_none (cs : List cchunk)
    (h : ∀ c ∈ cs, c.allocate.1 = none) : cpool.scan cs = none := by
  induction cs with
  | nil => rfl
  | cons c rest ih =>
    have hc := h c (List.mem_cons_self c rest)
    rcases hr : c.allocate with ⟨r, c'⟩
    rw [hr] at hc
    dsimp only at hc
    subst hc
    have hrest := ih (fun d hd => h d (List.mem_cons_of_mem c hd))
    simp [cpool.scan, hr, hrest]

/-- When the first chunk whose allocate succeeds is at index `j`, the scan
returns its address and index and updates exactly that chunk. -/
theorem cpool.scan_eq_some (cs : List cchunk) (j a : Nat) (cj' : cchunk)
    (hj : j < cs.length)
    (hfail : ∀ k, k < j → (cs.getD k default).allocate.1 = none)
    (hsucc : (cs.getD j default).allocate = (some a, cj')) :
    cpool.scan cs = some (a, j, cs.set j cj') := by
  induction cs generalizing j with
  | nil => simp at hj
  | cons c rest ih =>
    cases j with
    | zero =>
      have hc : c.allocate = (some a, cj') := hsucc
      simp [cpool.scan, hc]
    | succ j' =>
      have hc : c.allocate.1 = none := hfail 0 (Nat.succ_pos _)
      rcases hr : c.allocate with ⟨r, c'⟩
      rw [hr] at hc
      dsimp only at hc
      subst hc
      have hc' : c' = c := by
        have h0 := cchunk.allocate_none_eq c (by rw [hr])
        rw [hr] at h0
        exact h0
      subst hc'
      have hrec := ih j' (by simpa using hj)
        (fun k hk => hfail (k + 1) (by omega)) (by simpa using hsucc)
      simp [cpool.scan, hr, hrec]

/-- Conversely, a successful scan result is the first success. -/
theorem cpool.scan_some_spec (cs : List cchunk) (a j : Nat)
    (cs' : List cchunk) (h : cpool.scan cs = some (a, j, cs')) :
    j < cs.length ∧ (∀ k, k < j → (cs.getD k default).allocate.1 = none) ∧
      ∃ cj', (cs.getD j default).allocate = (some a, cj') ∧
        cs' = cs.set j cj' := by
  induction cs generalizing a j cs' with
  | nil => simp [cpool.scan] at h
  | cons c rest ih =>
    rcases hr : c.allocate with ⟨r, c'⟩
    cases r with
    | some x =>
      simp only [cpool.scan, hr] at h
      simp only [Option.some.injEq, Prod.mk.injEq] at h
      obtain ⟨rfl, rfl, rfl⟩ := h
      refine ⟨by simp, fun k hk => absurd hk (by omega), c', hr, by simp⟩
    | none =>
      have hc' : c' = c := by
        have h0 := cchunk.allocate_none_eq c (by rw [hr])
        rw [hr] at h0
        exact h0
      subst hc'
      cases hs : cpool.scan rest with
      | none => simp [cpool.scan, hr, hs] at h
      | some v =>
        rcases v with ⟨a2, j2, rest'⟩
        simp only [cpool.scan, hr, hs] at h
        simp only [Option.some.injEq, Prod.mk.injEq] at h
        obtain ⟨rfl, rfl, rfl⟩ := h
        obtain ⟨hj2, hfail2, cj', hsucc2, rfl⟩ := ih a2 j2 rest' hs
        refine ⟨by simpa using hj2, ?_, cj', by simpa using hsucc2, by simp⟩
      -- first-success property lifted through the head chunk
        intro k hk
        cases k with
        | zero =>
          show c'.allocate.1 = none
          rw [hr]
        | succ k' => simpa using hfail2 k' (by omega)

/-! ### `cpool::add_chunk` and the three paths of `cpool::allocate` -/

/-- `add_chunk` appends the new chunk in both branches. -/
theorem cpool.add_chunk_chunks (p : cpool) (s b : Nat) :
    (p.add_chunk s b).chunks = p.chunks ++ [cchunk.init p.obj_size s b] := by
  unfold cpool.add_chunk
  split <;> rfl

theorem cpool.add_chunk_obj_size (p : cpool) (s b : Nat) :
    (p.add_chunk s b).obj_size = p.obj_size := by
  unfold cpool.add_chunk
  split <;> rfl

theorem cpool.add_chunk_CS (p : cpool) (s b : Nat) :
    (p.add_chunk s b).CHUNK_SIZE = p.CHUNK_SIZE := by
  unfold cpool.add_chunk
  split <;> rfl

/-- The chunk count always grows by one on `add_chunk`. -/
theorem cpool.add_chunk_length (p : cpool) (s b : Nat) :
    (p.add_chunk s b).chunks.length = p.chunks.length + 1 := by
  rw [cpool.add_chunk_chunks]
  simp

/-- When the chunk array is full, `add_chunk` doubles the backing
capacity before appending. -/
theorem cpool.add_chunk_max_at_limit (p : cpool) (s b : Nat)
    (h : ¬ p.chunks.length < p.max_chunks) :
    (p.add_chunk s b).max_chunks = p.max_chunks * 2 := by
  unfold cpool.add_chunk
  rw [if_neg h]

/-- Fast path: the current chunk has space. -/
theorem cpool.allocate_current_path (p : cpool) (base a : Nat) (c' : cchunk)
    (h : (p.chunks.getD p.current default).allocate = (some a, c')) :
    p.allocate base =
      (some a, { p with chunks := p.chunks.set p.current c' }) := by
  unfold cpool.allocate
  rw [h]

/-- Scan path: the current chunk is exhausted and the scan succeeds. -/
theorem cpool.allocate_scan_path (p : cpool) (base a j : Nat)
    (chunks' : List cchunk)
    (hcur : (p.chunks.getD p.current default).allocate.1 = none)
    (hscan : cpool.scan p.chunks = some (a, j, chunks')) :
    p.allocate base =
      (some a, { p with chunks := chunks', current := j }) := by
  unfold cpool.allocate
  rcases hr : (p.chunks.getD p.current default).allocate with ⟨r, c'⟩
  rw [hr] at hcur
  dsimp only at hcur
  subst hcur
  rw [hscan]

/-- Growth path: no chunk has space; a chunk of byte budget `CHUNK_SIZE_`
is appended (growing the backing array first when at the limit), becomes
current, and bump-allocates its first address `base`. -/
theorem cpool.allocate_grow_path (p : cpool) (base : Nat)
    (hobj : 0 < p.obj_size)
    (hcur : (p.chunks.getD p.current default).allocate.1 = none)
    (hscan : cpool.scan p.chunks = none) :
    p.allocate base =
      (some base,
        { p.add_chunk p.CHUNK_SIZE base with
          chunks := p.chunks ++
            [{ cchunk.init p.obj_size p.CHUNK_SIZE base with
               next := base + p.obj_size }],
          current := p.chunks.length }) := by
  have hps := (cchunk.init_pool_size_facts p.obj_size p.CHUNK_SIZE base).1
  have hq : (p.add_chunk p.CHUNK_SIZE base).chunks =
      p.chunks ++ [cchunk.init p.obj_size p.CHUNK_SIZE base] :=
    cpool.add_chunk_chunks p p.CHUNK_SIZE base
  have hlen : (p.add_chunk p.CHUNK_SIZE base).chunks.length - 1 =
      p.chunks.length := by
    rw [hq]
    simp
  have hget : (p.add_chunk p.CHUNK_SIZE base).chunks.getD
      p.chunks.length default = cchunk.init p.obj_size p.CHUNK_SIZE base := by
    rw [hq]
    exact getD_append_len _ _
  have hb : (cchunk.init p.obj_size p.CHUNK_SIZE base).next <
      (cchunk.init p.obj_size p.CHUNK_SIZE base).mem +
        (cchunk.init p.obj_size p.CHUNK_SIZE base).pool_size := by
    show base < base + (cchunk.init p.obj_size p.CHUNK_SIZE base).pool_size
    omega
  have hbump := cchunk.allocate_bump _ hb
  unfold cpool.allocate
  rcases hr : (p.chunks.getD p.current default).allocate with ⟨r, c'⟩
  rw [hr] at hcur
  dsimp only at hcur
  subst hcur
  rw [hscan, hlen, hget, hbump]
  dsimp only
  rw [hq, set_append_len]
  rfl

/-- The default (zero) chunk is exhausted from the start. -/
theorem default_cchunk_allocate :
    (default : cchunk).allocate.1 = none := rfl

/-- C2: the allocation policy of `cpool::allocate`.
(i) It first tries the current chunk: on success only that chunk changes.
(ii) On the current chunk's exhaustion it scans all chunks in insertion
order, and the first chunk whose allocate succeeds becomes the new current
chunk.  (iii) If no existing chunk has room it appends a new chunk with
byte budget `max(obj_size_, DEFAULT_CHUNK_SIZE)`, makes it current, and
allocates from it — this returns the new chunk's first address, never the
null sentinel.  (iv) The append succeeds even when the chunk-count limit is
reached: `add_chunk` always grows the chunk count by one, doubling the
backing capacity first when `num_chunks_ == max_chunks_`, so the appended
chunk stays within the backing capacity. -/
theorem c2_pool_allocate_policy (p : cpool) (base : Nat)
    (hobj : 0 < p.obj_size)
    (hCS : p.CHUNK_SIZE = max p.obj_size DEFAULT_CHUNK_SIZE) :
    (∀ a c', (p.chunks.getD p.current default).allocate = (some a, c') →
      p.allocate base =
        (some a, { p with chunks := p.chunks.set p.current c' }))
    ∧ (∀ a j cj', (p.chunks.getD p.current default).allocate.1 = none →
        j < p.chunks.length →
        (∀ k, k < j → (p.chunks.getD k default).allocate.1 = none) →
        (p.chunks.getD j default).allocate = (some a, cj') →
        p.allocate base =
          (some a, { p with chunks := p.chunks.set j cj', current := j }))
    ∧ ((∀ c ∈ p.chunks, c.allocate.1 = none) →
        (p.allocate base).1 = some base ∧
        (p.allocate base).2.current = p.chunks.length ∧
        (p.allocate base).2.chunks.length = p.chunks.length + 1 ∧
        (p.allocate base).2.chunks.getD p.chunks.length default =
          { cchunk.init p.obj_size (max p.obj_size DEFAULT_CHUNK_SIZE) base
            with next := base + p.obj_size })
    ∧ (∀ s b, (p.add_chunk s b).chunks.length = p.chunks.length + 1 ∧
        (p.chunks.length = p.max_chunks →
          (p.add_chunk s b).max_chunks = 2 * p.max_chunks) ∧
        (0 < p.max_chunks → p.chunks.length ≤ p.max_chunks →
          (p.add_chunk s b).chunks.length ≤ (p.add_chunk s b).max_chunks)) := by
  refine ⟨?_, ?_, ?_, ?_⟩
  · intro a c' h
    exact cpool.allocate_current_path p base a c' h
  · intro a j cj' hcur hj hfail hsucc
    exact cpool.allocate_scan_path p base a j (p.chunks.set j cj') hcur
      (cpool.scan_eq_some p.chunks j a cj' hj hfail hsucc)
  · intro hall
    have hcur : (p.chunks.getD p.current default).allocate.1 = none := by
      by_cases hc : p.current < p.chunks.length
      · exact hall _ (getD_mem p.chunks p.current hc)
      · rw [List.getD_eq_default _ _ (by omega)]
        exact default_cchunk_allocate
    have hscan := cpool.scan_eq_none p.chunks hall
    have hgrow := cpool.allocate_grow_path p base hobj hcur hscan
    rw [hgrow]
    refine ⟨rfl, rfl, by simp, ?_⟩
    show (p.chunks ++ [_]).getD p.chunks.length default = _
    rw [getD_append_len, hCS]
  · intro s b
    refine ⟨cpool.add_chunk_length p s b, fun hlim => ?_, fun hmax hle => ?_⟩
    · rw [cpool.add_chunk_max_at_limit p s b (by omega)]
      omega
    · rw [cpool.add_chunk_length]
      unfold cpool.add_chunk
      split
      · dsimp only
        omega
      · dsimp only
        omega

/-- Witness for C2 at the one-chunk pool with slot size 1: the current
chunk has space, so the fast path returns its first address 0. -/
theorem c2_pool_allocate_policy_witness :
    0 < (cpool.init 1 1 [0]).obj_size ∧
      (cpool.init 1 1 [0]).CHUNK_SIZE =
        max (cpool.init 1 1 [0]).obj_size DEFAULT_CHUNK_SIZE ∧
      ((cpool.init 1 1 [0]).allocate 5).1 = some 0 := by
  refine ⟨by decide, by decide, ?_⟩
  have h := (c2_pool_allocate_policy (cpool.init 1 1 [0]) 5 (by decide)
      (by decide)).1 0
    (((cpool.init 1 1 [0]).chunks.getD (cpool.init 1 1 [0]).current
      default).allocate.2) (by decide)
  rw [h]

/-! ### Pool traces and the global aliasing invariant -/

/-- Helper: for buffers lying inside the unsigned range (`mem_ + pool_size_
≤ 2^32`) and addresses below `2^32`, the truncated containment test of the
source agrees with the exact range test. -/
theorem cchunk.contains_iff_of_bounded (c : cchunk) (addr : Nat)
    (hc : c.mem + c.pool_size ≤ 2 ^ 32) (ha : addr < 2 ^ 32) :
    (c.contains addr = true) ↔ c.in_range addr := by
  unfold cchunk.contains cchunk.in_range
  simp only [decide_eq_true_eq]
  omega

/-- The chunk-state/live-set relation maintained for every chunk of a pool:
like `cchunkInvC` but with the live set global to the pool, so the live
conditions are guarded by membership in this chunk's range and no counting
is possible. -/
structure cchunkInvP (c : cchunk) (live : Finset Nat) : Prop where
  hobj : 0 < c.obj_size
  hPS : c.obj_size ≤ c.pool_size
  hdivP : c.obj_size ∣ c.pool_size
  hmemnext : c.mem ≤ c.next
  hnextP : c.next ≤ c.mem + c.pool_size
  hdivnext : c.obj_size ∣ (c.next - c.mem)
  hstack : ∀ off ∈ c.freed_stack,
      off < c.next - c.mem ∧ c.obj_size ∣ off ∧ (c.mem + off) ∉ live
  hnodup : c.freed_stack.Nodup
  hlive : ∀ a ∈ live, c.in_range a →
      a < c.next ∧ c.obj_size ∣ (a - c.mem) ∧ (a - c.mem) ∉ c.freed_stack

/-- Shrinking the live set preserves the per-chunk relation. -/
theorem cchunkInvP_mono (c : cchunk) (live live' : Finset Nat)
    (hsub : live' ⊆ live) (h : cchunkInvP c live) : cchunkInvP c live' := by
  obtain ⟨h1, h2, h3, h4, h5, h6, h7, h8, h9⟩ := h
  refine ⟨h1, h2, h3, h4, h5, h6, ?_, h8, ?_⟩
  · intro off hoff
    obtain ⟨g1, g2, g3⟩ := h7 off hoff
    exact ⟨g1, g2, fun hm => g3 (hsub hm)⟩
  · intro a ha hin
    exact h9 a (hsub ha) hin

/-- Inserting an address outside this chunk's range preserves the
per-chunk relation. -/
theorem cchunkInvP_insert_other (c : cchunk) (live : Finset Nat) (a : Nat)
    (h : cchunkInvP c live) (hnr : ¬ c.in_range a) :
    cchunkInvP c (insert a live) := by
  obtain ⟨h1, h2, h3, h4, h5, h6, h7, h8, h9⟩ := h
  refine ⟨h1, h2, h3, h4, h5, h6, ?_, h8, ?_⟩
  · intro off hoff
    obtain ⟨g1, g2, g3⟩ := h7 off hoff
    refine ⟨g1, g2, ?_⟩
    rw [Finset.mem_insert]
    push_neg
    refine ⟨fun heq => hnr ?_, g3⟩
    rw [← heq]
    exact ⟨Nat.le_add_right _ _, by unfold cchunk.in_range at *; omega⟩
  · intro x hx hin
    rw [Finset.mem_insert] at hx
    rcases hx with rfl | hx
    · exact absurd hin hnr
    · exact h9 x hx hin

/-- Bump allocation on a chunk preserves the per-chunk relation, with the
returned cursor address inserted into the live set. -/
theorem cchunkInvP_bump_self (c : cchunk) (live : Finset Nat)
    (h : cchunkInvP c live) (hb : c.next < c.mem + c.pool_size) :
    cchunkInvP { c with next := c.next + c.obj_size } (insert c.next live) := by
  obtain ⟨hobj, hPS, hdivP, hmemnext, hnextP, hdivnext, hstack, hnodup,
    hlive⟩ := h
  have hgap : c.next - c.mem + c.obj_size ≤ c.pool_size :=
    add_dvd_le hdivnext hdivP (by omega)
  have hstep2 : (c.next + c.obj_size) - c.mem =
      (c.next - c.mem) + c.obj_size := by omega
  refine ⟨hobj, hPS, hdivP, ?_, ?_, ?_, ?_, hnodup, ?_⟩
  · dsimp only; omega
  · dsimp only; omega
  · dsimp only
    rw [hstep2]
    exact Nat.dvd_add hdivnext dvd_rfl
  · intro off hoff
    dsimp only at hoff ⊢
    obtain ⟨h1, h2, h3⟩ := hstack off hoff
    refine ⟨by omega, h2, ?_⟩
    rw [Finset.mem_insert]
    push_neg
    exact ⟨by omega, h3⟩
  · intro a ha hin
    dsimp only
    rw [Finset.mem_insert] at ha
    have hin' : c.in_range a := by
      obtain ⟨hx, hy⟩ := hin
      dsimp only at hx hy
      exact ⟨hx, by omega⟩
    rcases ha with rfl | ha
    · refine ⟨by omega, hdivnext, fun hmem => ?_⟩
      exact absurd (hstack _ hmem).1 (by omega)
    · obtain ⟨h1, h2, h3⟩ := hlive a ha hin'
      exact ⟨by omega, h2, h3⟩

/-- Popping the freed stack preserves the per-chunk relation, with the
popped address inserted into the live set. -/
theorem cchunkInvP_pop_self (c : cchunk) (live : Finset Nat) (off : Nat)
    (rest : List Nat) (h : cchunkInvP c live)
    (hs : c.freed_stack = off :: rest) :
    cchunkInvP { c with freed_stack := rest } (insert (c.mem + off) live) := by
  obtain ⟨hobj, hPS, hdivP, hmemnext, hnextP, hdivnext, hstack, hnodup,
    hlive⟩ := h
  obtain ⟨hoff1, hoff2, hoff3⟩ := hstack off (by rw [hs]; simp)
  have hoffrest : off ∉ rest := by
    rw [hs] at hnodup
    exact (List.nodup_cons.1 hnodup).1
  refine ⟨hobj, hPS, hdivP, hmemnext, hnextP, hdivnext, ?_, ?_, ?_⟩
  · intro off' hoff'
    dsimp only at hoff' ⊢
    obtain ⟨h1, h2, h3⟩ := hstack off' (by rw [hs]; simp [hoff'])
    refine ⟨h1, h2, ?_⟩
    rw [Finset.mem_insert]
    push_neg
    refine ⟨fun heq => ?_, h3⟩
    have he : off' = off := by omega
    exact hoffrest (he ▸ hoff')
  · dsimp only
    rw [hs] at hnodup
    exact (List.nodup_cons.1 hnodup).2
  · intro a ha hin
    dsimp only at hin ⊢
    rw [Finset.mem_insert] at ha
    rcases ha with rfl | ha
    · have he : c.mem + off - c.mem = off := by omega
      refine ⟨by omega, ?_, ?_⟩
      · rw [he]; exact hoff2
      · rw [he]; exact hoffrest
    · obtain ⟨h1, h2, h3⟩ := hlive a ha hin
      refine ⟨h1, h2, fun hmem => h3 (by rw [hs]; simp [hmem])⟩

/-- Deallocating a live in-range address preserves the per-chunk relation. -/
theorem cchunkInvP_dealloc_self (c : cchunk) (live : Finset Nat) (a : Nat)
    (h : cchunkInvP c live) (ha : a ∈ live) (hinr : c.in_range a) :
    cchunkInvP (c.deallocate a) (live.erase a) := by
  obtain ⟨hobj, hPS, hdivP, hmemnext, hnextP, hdivnext, hstack, hnodup,
    hlive⟩ := h
  obtain ⟨hanext, hadiv, hastack⟩ := hlive a ha hinr
  obtain ⟨hmema, haP⟩ := hinr
  have hsub : c.mem + (a - c.mem) = a := by omega
  unfold cchunk.deallocate
  refine ⟨hobj, hPS, hdivP, hmemnext, hnextP, hdivnext, ?_, ?_, ?_⟩
  · intro off hoff
    dsimp only at hoff ⊢
    rw [List.mem_cons] at hoff
    rcases hoff with rfl | hoff
    · refine ⟨by omega, hadiv, ?_⟩
      rw [hsub]
      exact Finset.not_mem_erase a live
    · obtain ⟨h1, h2, h3⟩ := hstack off hoff
      exact ⟨h1, h2, fun hmem => h3 (Finset.erase_subset a live hmem)⟩
  · dsimp only
    exact List.nodup_cons.2 ⟨hastack, hnodup⟩
  · intro x hxm hin
    dsimp only at hin ⊢
    have hin' : c.in_range x := hin
    obtain ⟨hxne, hxl⟩ := Finset.mem_erase.1 hxm
    obtain ⟨h1, h2, h3⟩ := hlive x hxl hin'
    obtain ⟨hmemx, _⟩ := hin'
    refine ⟨h1, h2, ?_⟩
    rw [List.mem_cons]
    push_neg
    exact ⟨by omega, h3⟩

/-- A freshly constructed chunk whose range avoids every live address
satisfies the per-chunk relation. -/
theorem cchunkInvP_fresh (S B b : Nat) (hS : 0 < S) (live : Finset Nat)
    (hnr : ∀ x ∈ live, ¬ (cchunk.init S B b).in_range x) :
    cchunkInvP (cchunk.init S B b) live := by
  obtain ⟨hle, hdvd⟩ := cchunk.init_pool_size_facts S B b
  refine ⟨hS, hle, hdvd, ?_, ?_, ?_, ?_, ?_, ?_⟩
  · rw [cchunk.init_mem, cchunk.init_next]
  · rw [cchunk.init_mem, cchunk.init_next]
    exact Nat.le_add_right _ _
  · rw [cchunk.init_mem, cchunk.init_next, cchunk.init_obj_size]
    simp
  · intro off hoff
    rw [cchunk.init_freed_stack] at hoff
    exact absurd hoff (List.not_mem_nil off)
  · rw [cchunk.init_freed_stack]
    exact List.nodup_nil
  · intro x hx hin
    exact absurd hin (hnr x hx)

/-- One call on a pool.  An `alloc` carries the buffer base address the
system allocator would hand a newly created chunk (it matters only when the
pool actually grows). -/
inductive pop where
  | alloc (base : Nat) : pop
  | dealloc (addr : Nat) : pop
  deriving Repr, DecidableEq

/-- Execute one call on a pool, tracking the set of live addresses. -/
def pstep : cpool × Finset Nat → pop → cpool × Finset Nat
  | (p, live), pop.alloc b =>
    match p.allocate b with
    | (some a, p') => (p', insert a live)
    | (none, p') => (p', live)
  | (p, live), pop.dealloc a => ((p.deallocate a).2, live.erase a)

/-- Execute a trace of calls on a pool. -/
def prun (s : cpool × Finset Nat) (ops : List pop) : cpool × Finset Nat :=
  ops.foldl pstep s

/-- A fresh buffer base is acceptable when the chunk the pool would build
on it stays inside the unsigned range and is disjoint from every existing
buffer — exactly what the system allocator guarantees for a fresh
`new char[]` block within the first 4 GiB of address space. -/
def cpool.fresh_base_ok (p : cpool) (b : Nat) : Prop :=
  b + (cchunk.init p.obj_size p.CHUNK_SIZE b).pool_size ≤ 2 ^ 32 ∧
    ∀ c ∈ p.chunks,
      c.mem + c.pool_size ≤ b ∨
        b + (cchunk.init p.obj_size p.CHUNK_SIZE b).pool_size ≤ c.mem

instance (p : cpool) (b : Nat) : Decidable (p.fresh_base_ok b) := by
  unfold cpool.fresh_base_ok
  infer_instance

/-- Ownership- and layout-respecting pool traces: each `dealloc` frees a
live address, each `alloc` is supplied an acceptable fresh base. -/
inductive pok : cpool × Finset Nat → List pop → Prop
  | nil (s : cpool × Finset Nat) : pok s []
  | alloc (s : cpool × Finset Nat) (b : Nat) (ops : List pop) :
      cpool.fresh_base_ok s.1 b → pok (pstep s (pop.alloc b)) ops →
      pok s (pop.alloc b :: ops)
  | dealloc (s : cpool × Finset Nat) (a : Nat) (ops : List pop) :
      a ∈ s.2 → pok (pstep s (pop.dealloc a)) ops →
      pok s (pop.dealloc a :: ops)

/-- Pool traces decompose across append. -/
theorem pok_append (s : cpool × Finset Nat) (t1 t2 : List pop)
    (h : pok s (t1 ++ t2)) : pok s t1 ∧ pok (prun s t1) t2 := by
  induction t1 generalizing s with
  | nil => exact ⟨pok.nil s, h⟩
  | cons op rest ih =>
    cases h with
    | alloc _ b _ hfb h' =>
      obtain ⟨ha, hb⟩ := ih (pstep s (pop.alloc b)) h'
      exact ⟨pok.alloc s b rest hfb ha, hb⟩
    | dealloc _ a _ hmem h' =>
      obtain ⟨ha, hb⟩ := ih (pstep s (pop.dealloc a)) h'
      exact ⟨pok.dealloc s a rest hmem ha, hb⟩

theorem prun_append (s : cpool × Finset Nat) (t1 t2 : List pop) :
    prun s (t1 ++ t2) = prun (prun s t1) t2 := by
  simp [prun]

/-- The routing loop of `cpool::deallocate` finds the first chunk whose
containment test accepts the address and updates exactly that chunk. -/
theorem cpool.dealloc_scan_spec (addr : Nat) (cs cs' : List cchunk)
    (h : cpool.dealloc_scan addr cs = some cs') :
    ∃ j, j < cs.length ∧ (cs.getD j default).contains addr = true ∧
      (∀ k, k < j → (cs.getD k default).contains addr = false) ∧
      cs' = cs.set j ((cs.getD j default).deallocate addr) := by
  induction cs generalizing cs' with
  | nil => simp [cpool.dealloc_scan] at h
  | cons c rest ih =>
    by_cases hc : c.contains addr = true
    · simp only [cpool.dealloc_scan, hc, if_true] at h
      simp only [Option.some.injEq] at h
      subst h
      exact ⟨0, by simp, hc, fun k hk => absurd hk (by omega), by simp⟩
    · have hc' : c.contains addr = false := by
        cases hcc : c.contains addr
        · rfl
        · exact absurd hcc hc
      cases hs : cpool.dealloc_scan addr rest with
      | none => simp [cpool.dealloc_scan, hc', hs] at h
      | some rest' =>
        simp only [cpool.dealloc_scan, hc', Bool.false_eq_true, if_false,
          hs] at h
        simp only [Option.some.injEq] at h
        subst h
        obtain ⟨j, hj, hcj, hfail, rfl⟩ := ih rest' hs
        refine ⟨j + 1, by simpa using hj, by simpa using hcj, ?_, by simp⟩
        intro k hk
        cases k with
        | zero => exact hc'
        | succ k' => simpa using hfail k' (by omega)

/-- Updating one entry of a chunk list with a chunk of the same shape
(`mem`, `pool_size`, `obj_size`) leaves every entry's shape unchanged. -/
theorem getD_set_fields (l : List cchunk) (i k : Nat) (c' : cchunk)
    (hi : i < l.length)
    (hmem : c'.mem = (l.getD i default).mem)
    (hps : c'.pool_size = (l.getD i default).pool_size)
    (hobj : c'.obj_size = (l.getD i default).obj_size) :
    ((l.set i c').getD k default).mem = (l.getD k default).mem ∧
      ((l.set i c').getD k default).pool_size =
        (l.getD k default).pool_size ∧
      ((l.set i c').getD k default).obj_size =
        (l.getD k default).obj_size := by
  by_cases hik : i = k
  · subst hik
    rw [getD_set_self l i c' hi]
    exact ⟨hmem, hps, hobj⟩
  · rw [getD_set_ne l i k c' hik]
    exact ⟨rfl, rfl, rfl⟩

/-- The pool-wide invariant: a well-formed current index, uniform object
size, the per-chunk relation for every chunk, buffers inside the unsigned
range, pairwise-disjoint buffers, and every live address lying in some
chunk's buffer. -/
structure cpoolInv (p : cpool) (live : Finset Nat) : Prop where
  hobj : 0 < p.obj_size
  hcur : p.current < p.chunks.length
  hobj_eq : ∀ i, i < p.chunks.length →
    (p.chunks.getD i default).obj_size = p.obj_size
  hchunk : ∀ i, i < p.chunks.length →
    cchunkInvP (p.chunks.getD i default) live
  hbnd : ∀ i, i < p.chunks.length →
    (p.chunks.getD i default).mem + (p.chunks.getD i default).pool_size ≤
      2 ^ 32
  hdisj : ∀ i j, i < p.chunks.length → j < p.chunks.length → i ≠ j →
    (p.chunks.getD i default).mem + (p.chunks.getD i default).pool_size ≤
        (p.chunks.getD j default).mem ∨
      (p.chunks.getD j default).mem + (p.chunks.getD j default).pool_size ≤
        (p.chunks.getD i default).mem
  howned : ∀ a ∈ live, ∃ i, i < p.chunks.length ∧
    (p.chunks.getD i default).in_range a

/-- Replacing chunk `j` by a same-shape chunk that satisfies the per-chunk
relation for the enlarged live set — for an address `a` inside chunk `j`'s
buffer — preserves the pool invariant (with any in-bounds current index). -/
theorem cpoolInv_set_assemble (p : cpool) (live : Finset Nat) (j a : Nat)
    (cj' : cchunk) (cur' : Nat) (h : cpoolInv p live)
    (hj : j < p.chunks.length) (hcur' : cur' < p.chunks.length)
    (hm : cj'.mem = (p.chunks.getD j default).mem)
    (hp : cj'.pool_size = (p.chunks.getD j default).pool_size)
    (ho : cj'.obj_size = (p.chunks.getD j default).obj_size)
    (hinr : (p.chunks.getD j default).in_range a)
    (hinv' : cchunkInvP cj' (insert a live)) :
    cpoolInv { p with chunks := p.chunks.set j cj', current := cur' }
      (insert a live) := by
  refine ⟨h.hobj, ?_, ?_, ?_, ?_, ?_, ?_⟩
  · dsimp only
    rw [List.length_set]
    exact hcur'
  · intro i hi
    dsimp only at hi ⊢
    rw [List.length_set] at hi
    obtain ⟨_, _, h3⟩ := getD_set_fields p.chunks j i cj' hj hm hp ho
    rw [h3]
    exact h.hobj_eq i hi
  · intro i hi
    dsimp only at hi ⊢
    rw [List.length_set] at hi
    by_cases hij : i = j
    · subst hij
      rw [getD_set_self _ _ _ hj]
      exact hinv'
    · rw [getD_set_ne _ _ _ _ (fun he => hij he.symm)]
      refine cchunkInvP_insert_other _ _ _ (h.hchunk i hi) ?_
      intro hin
      obtain ⟨g1, g2⟩ := hin
      obtain ⟨f1, f2⟩ := hinr
      rcases h.hdisj i j hi hj hij with hd | hd <;> omega
  · intro i hi
    dsimp only at hi ⊢
    rw [List.length_set] at hi
    obtain ⟨h1, h2, _⟩ := getD_set_fields p.chunks j i cj' hj hm hp ho
    rw [h1, h2]
    exact h.hbnd i hi
  · intro i k hi hk hik
    dsimp only at hi hk ⊢
    rw [List.length_set] at hi hk
    obtain ⟨h1, h2, _⟩ := getD_set_fields p.chunks j i cj' hj hm hp ho
    obtain ⟨g1, g2, _⟩ := getD_set_fields p.chunks j k cj' hj hm hp ho
    rw [h1, h2, g1, g2]
    exact h.hdisj i k hi hk hik
  · intro x hx
    dsimp only
    rw [Finset.mem_insert] at hx
    rcases hx with rfl | hx
    · refine ⟨j, by rw [List.length_set]; exact hj, ?_⟩
      obtain ⟨h1, h2, _⟩ := getD_set_fields p.chunks j j cj' hj hm hp ho
      unfold cchunk.in_range at hinr ⊢
      rw [h1, h2]
      exact hinr
    · obtain ⟨i, hi, hin⟩ := h.howned x hx
      refine ⟨i, by rw [List.length_set]; exact hi, ?_⟩
      obtain ⟨h1, h2, _⟩ := getD_set_fields p.chunks j i cj' hj hm hp ho
      unfold cchunk.in_range at hin ⊢
      rw [h1, h2]
      exact hin

/-- A successful chunk allocation at index `j` (bump or pop) preserves the
pool invariant with the returned address inserted into the live set. -/
theorem cpoolInv_alloc_chunk (p : cpool) (live : Finset Nat) (j a : Nat)
    (cj' : cchunk) (cur' : Nat) (h : cpoolInv p live)
    (hj : j < p.chunks.length) (hcur' : cur' < p.chunks.length)
    (hsucc : (p.chunks.getD j default).allocate = (some a, cj')) :
    cpoolInv { p with chunks := p.chunks.set j cj', current := cur' }
      (insert a live) := by
  have hcj := h.hchunk j hj
  have hpres : cj'.mem = (p.chunks.getD j default).mem ∧
      cj'.pool_size = (p.chunks.getD j default).pool_size ∧
      cj'.obj_size = (p.chunks.getD j default).obj_size := by
    have := cchunk.allocate_preserves (p.chunks.getD j default)
    rw [hsucc] at this
    exact ⟨this.2.2, this.2.1, this.1⟩
  by_cases hb : (p.chunks.getD j default).next <
      (p.chunks.getD j default).mem + (p.chunks.getD j default).pool_size
  · rw [cchunk.allocate_bump _ hb] at hsucc
    simp only [Prod.mk.injEq, Option.some.injEq] at hsucc
    obtain ⟨h1, h2⟩ := hsucc
    subst h1
    subst h2
    exact cpoolInv_set_assemble p live j _ _ cur' h hj hcur' hpres.1 hpres.2.1
      hpres.2.2 ⟨hcj.hmemnext, hb⟩ (cchunkInvP_bump_self _ live hcj hb)
  · cases hs : (p.chunks.getD j default).freed_stack with
    | nil =>
      rw [cchunk.allocate_exhausted _ hb hs] at hsucc
      simp at hsucc
    | cons off rest =>
      rw [cchunk.allocate_pop _ hb off rest hs] at hsucc
      simp only [Prod.mk.injEq, Option.some.injEq] at hsucc
      obtain ⟨h1, h2⟩ := hsucc
      subst h1
      subst h2
      have hoff := hcj.hstack off (by rw [hs]; simp)
      refine cpoolInv_set_assemble p live j _ _ cur' h hj hcur' hpres.1
        hpres.2.1 hpres.2.2 ⟨Nat.le_add_right _ _, ?_⟩
        (cchunkInvP_pop_self _ live off rest hcj hs)
      have := hcj.hnextP
      have := hcj.hmemnext
      omega

/-- Routing a deallocation to the chunk whose buffer holds the live
address preserves the pool invariant with the address erased. -/
theorem cpoolInv_dealloc_assemble (p : cpool) (live : Finset Nat)
    (j a : Nat) (h : cpoolInv p live) (hj : j < p.chunks.length)
    (ha : a ∈ live) (hinr : (p.chunks.getD j default).in_range a) :
    cpoolInv { p with
        chunks := p.chunks.set j
          ((p.chunks.getD j default).deallocate a) }
      (live.erase a) := by
  have hpres := cchunk.deallocate_preserves (p.chunks.getD j default) a
  refine ⟨h.hobj, ?_, ?_, ?_, ?_, ?_, ?_⟩
  · dsimp only
    rw [List.length_set]
    exact h.hcur
  · intro i hi
    dsimp only at hi ⊢
    rw [List.length_set] at hi
    obtain ⟨_, _, h3⟩ := getD_set_fields p.chunks j i _ hj hpres.2.2.1
      hpres.2.1 hpres.1
    rw [h3]
    exact h.hobj_eq i hi
  · intro i hi
    dsimp only at hi ⊢
    rw [List.length_set] at hi
    by_cases hij : i = j
    · subst hij
      rw [getD_set_self _ _ _ hj]
      exact cchunkInvP_dealloc_self _ live a (h.hchunk i hi) ha hinr
    · rw [getD_set_ne _ _ _ _ (fun he => hij he.symm)]
      exact cchunkInvP_mono _ _ _ (Finset.erase_subset a live)
        (h.hchunk i hi)
  · intro i hi
    dsimp only at hi ⊢
    rw [List.length_set] at hi
    obtain ⟨h1, h2, _⟩ := getD_set_fields p.chunks j i _ hj hpres.2.2.1
      hpres.2.1 hpres.1
    rw [h1, h2]
    exact h.hbnd i hi
  · intro i k hi hk hik
    dsimp only at hi hk ⊢
    rw [List.length_set] at hi hk
    obtain ⟨h1, h2, _⟩ := getD_set_fields p.chunks j i _ hj hpres.2.2.1
      hpres.2.1 hpres.1
    obtain ⟨g1, g2, _⟩ := getD_set_fields p.chunks j k _ hj hpres.2.2.1
      hpres.2.1 hpres.1
    rw [h1, h2, g1, g2]
    exact h.hdisj i k hi hk hik
  · intro x hx
    dsimp only
    obtain ⟨i, hi, hin⟩ := h.howned x (Finset.erase_subset a live hx)
    refine ⟨i, by rw [List.length_set]; exact hi, ?_⟩
    obtain ⟨h1, h2, _⟩ := getD_set_fields p.chunks j i _ hj hpres.2.2.1
      hpres.2.1 hpres.1
    unfold cchunk.in_range at hin ⊢
    rw [h1, h2]
    exact hin

/-- Growing the pool with a fresh disjoint chunk and bump-allocating its
first address preserves the pool invariant. -/
theorem cpoolInv_grow_assemble (p : cpool) (live : Finset Nat) (b : Nat)
    (h : cpoolInv p live) (hfb : p.fresh_base_ok b) :
    cpoolInv
      { p.add_chunk p.CHUNK_SIZE b with
        chunks := p.chunks ++
          [{ cchunk.init p.obj_size p.CHUNK_SIZE b with
             next := b + p.obj_size }],
        current := p.chunks.length }
      (insert b live) := by
  obtain ⟨hfb1, hfb2⟩ := hfb
  have hncP := cchunk.init_pool_size_facts p.obj_size p.CHUNK_SIZE b
  have hPpos : 0 < (cchunk.init p.obj_size p.CHUNK_SIZE b).pool_size := by
    have := h.hobj
    omega
  have hfresh : cchunkInvP (cchunk.init p.obj_size p.CHUNK_SIZE b) live := by
    refine cchunkInvP_fresh _ _ _ h.hobj live ?_
    intro x hx hin
    obtain ⟨i, hi, hini⟩ := h.howned x hx
    obtain ⟨g1, g2⟩ := hini
    have hdj := hfb2 _ (getD_mem p.chunks i hi)
    obtain ⟨f1, f2⟩ := hin
    rw [cchunk.init_mem] at f1 f2
    rcases hdj with hd | hd <;> omega
  have hbump : (cchunk.init p.obj_size p.CHUNK_SIZE b).next <
      (cchunk.init p.obj_size p.CHUNK_SIZE b).mem +
        (cchunk.init p.obj_size p.CHUNK_SIZE b).pool_size := by
    rw [cchunk.init_mem, cchunk.init_next]
    omega
  have hR : cchunkInvP
      ({ cchunk.init p.obj_size p.CHUNK_SIZE b with
         next := b + p.obj_size }) (insert b live) :=
    cchunkInvP_bump_self _ live hfresh hbump
  have hlen : (p.chunks ++
      [{ cchunk.init p.obj_size p.CHUNK_SIZE b with
         next := b + p.obj_size }]).length = p.chunks.length + 1 := by
    simp
  refine ⟨?_, ?_, ?_, ?_, ?_, ?_, ?_⟩
  · show 0 < (p.add_chunk p.CHUNK_SIZE b).obj_size
    rw [cpool.add_chunk_obj_size]
    exact h.hobj
  · dsimp only
    rw [hlen]
    omega
  · intro i hi
    dsimp only at hi ⊢
    rw [hlen] at hi
    rw [cpool.add_chunk_obj_size]
    by_cases hil : i < p.chunks.length
    · rw [getD_append_lt _ _ _ hil]
      exact h.hobj_eq i hil
    · have : i = p.chunks.length := by omega
      subst this
      rw [getD_append_len]
      show (cchunk.init p.obj_size p.CHUNK_SIZE b).obj_size = p.obj_size
      rw [cchunk.init_obj_size]
  · intro i hi
    dsimp only at hi ⊢
    rw [hlen] at hi
    by_cases hil : i < p.chunks.length
    · rw [getD_append_lt _ _ _ hil]
      refine cchunkInvP_insert_other _ _ _ (h.hchunk i hil) ?_
      intro hin
      obtain ⟨g1, g2⟩ := hin
      have hdj := hfb2 _ (getD_mem p.chunks i hil)
      rcases hdj with hd | hd <;> omega
    · have : i = p.chunks.length := by omega
      subst this
      rw [getD_append_len]
      exact hR
  · intro i hi
    dsimp only at hi ⊢
    rw [hlen] at hi
    by_cases hil : i < p.chunks.length
    · rw [getD_append_lt _ _ _ hil]
      exact h.hbnd i hil
    · have : i = p.chunks.length := by omega
      subst this
      rw [getD_append_len]
      exact hfb1
  · intro i k hi hk hik
    dsimp only at hi hk ⊢
    rw [hlen] at hi hk
    by_cases hil : i < p.chunks.length
    · by_cases hkl : k < p.chunks.length
      · rw [getD_append_lt _ _ _ hil, getD_append_lt _ _ _ hkl]
        exact h.hdisj i k hil hkl hik
      · have : k = p.chunks.length := by omega
        subst this
        rw [getD_append_lt _ _ _ hil, getD_append_len]
        have hdj := hfb2 _ (getD_mem p.chunks i hil)
        rcases hdj with hd | hd
        · left; exact hd
        · right; exact hd
    · have : i = p.chunks.length := by omega
      subst this
      have hkl : k < p.chunks.length := by omega
      rw [getD_append_len, getD_append_lt _ _ _ hkl]
      have hdj := hfb2 _ (getD_mem p.chunks k hkl)
      rcases hdj with hd | hd
      · right; exact hd
      · left; exact hd
  · intro x hx
    dsimp only
    rw [Finset.mem_insert] at hx
    rcases hx with rfl | hx
    · refine ⟨p.chunks.length, by rw [hlen]; omega, ?_⟩
      rw [getD_append_len]
      constructor
      · show (cchunk.init p.obj_size p.CHUNK_SIZE x).mem ≤ x
        rw [cchunk.init_mem]
      · show x < (cchunk.init p.obj_size p.CHUNK_SIZE x).mem +
          (cchunk.init p.obj_size p.CHUNK_SIZE x).pool_size
        rw [cchunk.init_mem]
        omega
    · obtain ⟨i, hi, hin⟩ := h.howned x hx
      refine ⟨i, by rw [hlen]; omega, ?_⟩
      rw [getD_append_lt _ _ _ hi]
      exact hin

/-- Each ownership- and layout-respecting call preserves the pool
invariant. -/
theorem cpoolInv_step (p : cpool) (live : Finset Nat) (op : pop)
    (h : cpoolInv p live)
    (hop : ∀ b, op = pop.alloc b → cpool.fresh_base_ok p b)
    (hop2 : ∀ a, op = pop.dealloc a → a ∈ live) :
    cpoolInv (pstep (p, live) op).1 (pstep (p, live) op).2 := by
  cases op with
  | alloc b =>
    have hfb := hop b rfl
    rcases hr : (p.chunks.getD p.current default).allocate with ⟨r, c'⟩
    cases r with
    | some a =>
      have heq := cpool.allocate_current_path p b a c' hr
      have hstep : pstep (p, live) (pop.alloc b) =
          ({ p with chunks := p.chunks.set p.current c' },
            insert a live) := by
        simp [pstep, heq]
      rw [hstep]
      exact cpoolInv_alloc_chunk p live p.current a c' p.current h h.hcur
        h.hcur hr
    | none =>
      cases hscan : cpool.scan p.chunks with
      | some v =>
        rcases v with ⟨a, j, chunks'⟩
        have heq := cpool.allocate_scan_path p b a j chunks' (by rw [hr])
          hscan
        obtain ⟨hj, hfail, cj', hsucc, rfl⟩ :=
          cpool.scan_some_spec _ _ _ _ hscan
        have hstep : pstep (p, live) (pop.alloc b) =
            ({ p with chunks := p.chunks.set j cj', current := j },
              insert a live) := by
          simp [pstep, heq]
        rw [hstep]
        exact cpoolInv_alloc_chunk p live j a cj' j h hj hj hsucc
      | none =>
        have heq := cpool.allocate_grow_path p b h.hobj (by rw [hr]) hscan
        have hstep : pstep (p, live) (pop.alloc b) =
            ({ p.add_chunk p.CHUNK_SIZE b with
               chunks := p.chunks ++
                 [{ cchunk.init p.obj_size p.CHUNK_SIZE b with
                    next := b + p.obj_size }],
               current := p.chunks.length }, insert b live) := by
          simp [pstep, heq]
        rw [hstep]
        exact cpoolInv_grow_assemble p live b h hfb
  | dealloc a =>
    have ha := hop2 a rfl
    cases hscan : cpool.dealloc_scan a p.chunks with
    | none =>
      have hstep : pstep (p, live) (pop.dealloc a) = (p, live.erase a) := by
        simp [pstep, cpool.deallocate, hscan]
      rw [hstep]
      refine ⟨h.hobj, h.hcur, h.hobj_eq, ?_, h.hbnd, h.hdisj, ?_⟩
      · intro i hi
        exact cchunkInvP_mono _ _ _ (Finset.erase_subset a live)
          (h.hchunk i hi)
      · intro x hx
        exact h.howned x (Finset.erase_subset a live hx)
    | some cs' =>
      obtain ⟨j, hj, hcj, hfail, rfl⟩ :=
        cpool.dealloc_scan_spec a p.chunks cs' hscan
      obtain ⟨i, hi, hini⟩ := h.howned a ha
      have ha32 : a < 2 ^ 32 := by
        have := h.hbnd i hi
        obtain ⟨_, h2⟩ := hini
        omega
      have hinr : (p.chunks.getD j default).in_range a :=
        (cchunk.contains_iff_of_bounded _ a (h.hbnd j hj) ha32).1 hcj
      have hstep : pstep (p, live) (pop.dealloc a) =
          ({ p with chunks :=
              p.chunks.set j ((p.chunks.getD j default).deallocate a) },
            live.erase a) := by
        simp [pstep, cpool.deallocate, hscan]
      rw [hstep]
      exact cpoolInv_dealloc_assemble p live j a h hj ha hinr

/-- The pool invariant holds after every ownership- and layout-respecting
trace. -/
theorem cpoolInv_run (s : cpool × Finset Nat) (ops : List pop)
    (h : cpoolInv s.1 s.2) (hok : pok s ops) :
    cpoolInv (prun s ops).1 (prun s ops).2 := by
  induction hok with
  | nil s => exact h
  | alloc s b ops hfb _ ih =>
    exact ih (cpoolInv_step s.1 s.2 (pop.alloc b) h
      (by intro b' h'; cases h'; exact hfb) (by intro a h'; cases h'))
  | dealloc s a ops ha _ ih =>
    exact ih (cpoolInv_step s.1 s.2 (pop.dealloc a) h
      (by intro b h'; cases h') (by intro a' h'; cases h'; exact ha))

/-- A successful chunk allocation never returns a live address: the bump
cursor is ahead of every live slot and freed-stack entries are dead. -/
theorem chunk_alloc_fresh (p : cpool) (live : Finset Nat) (j a : Nat)
    (cj' : cchunk) (h : cpoolInv p live) (hj : j < p.chunks.length)
    (hsucc : (p.chunks.getD j default).allocate = (some a, cj')) :
    a ∉ live := by
  have hcj := h.hchunk j hj
  by_cases hb : (p.chunks.getD j default).next <
      (p.chunks.getD j default).mem + (p.chunks.getD j default).pool_size
  · rw [cchunk.allocate_bump _ hb] at hsucc
    simp only [Prod.mk.injEq, Option.some.injEq] at hsucc
    obtain ⟨h1, _⟩ := hsucc
    subst h1
    intro ha
    exact absurd (hcj.hlive _ ha ⟨hcj.hmemnext, hb⟩).1 (lt_irrefl _)
  · cases hs : (p.chunks.getD j default).freed_stack with
    | nil =>
      rw [cchunk.allocate_exhausted _ hb hs] at hsucc
      simp at hsucc
    | cons off rest =>
      rw [cchunk.allocate_pop _ hb off rest hs] at hsucc
      simp only [Prod.mk.injEq, Option.some.injEq] at hsucc
      obtain ⟨h1, _⟩ := hsucc
      subst h1
      exact (hcj.hstack off (by rw [hs]; simp)).2.2

/-- Under the pool invariant, any address `cpool::allocate` returns is not
currently live. -/
theorem cpool_allocate_no_alias (p : cpool) (live : Finset Nat) (b a : Nat)
    (h : cpoolInv p live) (hfb2 : cpool.fresh_base_ok p b)
    (hres : (p.allocate b).1 = some a) : a ∉ live := by
  rcases hr : (p.chunks.getD p.current default).allocate with ⟨r, c'⟩
  cases r with
  | some x =>
    rw [cpool.allocate_current_path p b x c' hr] at hres
    simp only [Option.some.injEq] at hres
    subst hres
    exact chunk_alloc_fresh p live p.current x c' h h.hcur hr
  | none =>
    cases hscan : cpool.scan p.chunks with
    | some v =>
      rcases v with ⟨x, j, chunks'⟩
      rw [cpool.allocate_scan_path p b x j chunks' (by rw [hr]) hscan]
        at hres
      simp only [Option.some.injEq] at hres
      subst hres
      obtain ⟨hj, _, cj', hsucc, _⟩ := cpool.scan_some_spec _ _ _ _ hscan
      exact chunk_alloc_fresh p live j x cj' h hj hsucc
    | none =>
      rw [cpool.allocate_grow_path p b h.hobj (by rw [hr]) hscan] at hres
      simp only [Option.some.injEq] at hres
      subst hres
      intro ha
      obtain ⟨i, hi, hini⟩ := h.howned b ha
      obtain ⟨g1, g2⟩ := hini
      have hdj := hfb2.2 _ (getD_mem p.chunks i hi)
      have hPpos : 0 < (cchunk.init p.obj_size p.CHUNK_SIZE b).pool_size := by
        have := (cchunk.init_pool_size_facts p.obj_size p.CHUNK_SIZE b).1
        have := h.hobj
        omega
      rcases hdj with hd | hd <;> omega

theorem cpool.add_chunk_current (p : cpool) (s b : Nat) :
    (p.add_chunk s b).current = p.current := by
  unfold cpool.add_chunk
  split <;> rfl

/-- The constructor loop of `cpool::init` appends one chunk of budget
`CHUNK_SIZE_` per iteration. -/
theorem cpool.foldl_add_chunks (bases : List Nat) (p : cpool) :
    ((bases.foldl (fun (q : cpool) b => q.add_chunk q.CHUNK_SIZE b) p).chunks =
      p.chunks ++
        bases.map (fun b => cchunk.init p.obj_size p.CHUNK_SIZE b)) ∧
    (bases.foldl (fun (q : cpool) b => q.add_chunk q.CHUNK_SIZE b) p).obj_size =
      p.obj_size ∧
    (bases.foldl (fun (q : cpool) b => q.add_chunk q.CHUNK_SIZE b) p).CHUNK_SIZE =
      p.CHUNK_SIZE := by
  induction bases generalizing p with
  | nil => exact ⟨by simp, rfl, rfl⟩
  | cons b rest ih =>
    obtain ⟨h1, h2, h3⟩ := ih (p.add_chunk p.CHUNK_SIZE b)
    rw [List.foldl_cons]
    refine ⟨?_, ?_, ?_⟩
    · rw [h1, cpool.add_chunk_chunks, cpool.add_chunk_obj_size,
        cpool.add_chunk_CS]
      simp
    · rw [h2, cpool.add_chunk_obj_size]
    · rw [h3, cpool.add_chunk_CS]

/-- What `cpool::init` builds: one chunk of budget
`max(obj_size, DEFAULT_CHUNK_SIZE)` per supplied base, current chunk 0. -/
theorem cpool.init_spec (S n : Nat) (bases : List Nat) :
    (cpool.init S n bases).chunks =
      bases.map (fun b => cchunk.init S (max S DEFAULT_CHUNK_SIZE) b) ∧
    (cpool.init S n bases).current = 0 ∧
    (cpool.init S n bases).obj_size = S ∧
    (cpool.init S n bases).CHUNK_SIZE = max S DEFAULT_CHUNK_SIZE := by
  obtain ⟨h1, h2, h3⟩ := cpool.foldl_add_chunks bases
    { chunks := [], current := 0, max_chunks := n, obj_size := S,
      CHUNK_SIZE := max S DEFAULT_CHUNK_SIZE }
  refine ⟨?_, rfl, ?_, ?_⟩
  · show (bases.foldl (fun (q : cpool) b => q.add_chunk q.CHUNK_SIZE b)
      { chunks := [], current := 0, max_chunks := n, obj_size := S,
        CHUNK_SIZE := max S DEFAULT_CHUNK_SIZE }).chunks = _
    rw [h1]
    simp
  · exact h2
  · exact h3

theorem getD_map_exists (f : Nat → cchunk) (bases : List Nat) (i : Nat)
    (h : i < bases.length) : ∃ b, (bases.map f).getD i default = f b := by
  induction bases generalizing i with
  | nil => simp at h
  | cons x xs ih =>
    cases i with
    | zero => exact ⟨x, rfl⟩
    | succ i' =>
      obtain ⟨b, hb⟩ := ih i' (by simpa using h)
      exact ⟨b, by simpa using hb⟩

/-- The layout discipline the system allocator provides: all buffers inside
the unsigned range and pairwise disjoint. -/
def chunks_layout_ok (cs : List cchunk) : Prop :=
  (∀ i, i < cs.length →
    (cs.getD i default).mem + (cs.getD i default).pool_size ≤ 2 ^ 32) ∧
  ∀ i, i < cs.length → ∀ j, j < cs.length → i ≠ j →
    (cs.getD i default).mem + (cs.getD i default).pool_size ≤
        (cs.getD j default).mem ∨
      (cs.getD j default).mem + (cs.getD j default).pool_size ≤
        (cs.getD i default).mem

instance (cs : List cchunk) : Decidable (chunks_layout_ok cs) := by
  unfold chunks_layout_ok
  infer_instance

/-- Acceptable buffer bases for the chunks `cpool::init` pre-creates. -/
def cpool.init_bases_ok (S : Nat) (bases : List Nat) : Prop :=
  chunks_layout_ok
    (bases.map (fun b => cchunk.init S (max S DEFAULT_CHUNK_SIZE) b))

instance (S : Nat) (bases : List Nat) :
    Decidable (cpool.init_bases_ok S bases) := by
  unfold cpool.init_bases_ok
  infer_instance

/-- A freshly constructed pool satisfies the pool invariant. -/
theorem cpoolInv_init (S n : Nat) (bases : List Nat) (hS : 0 < S)
    (hn : 0 < n) (hblen : bases.length = n)
    (hlayout : cpool.init_bases_ok S bases) :
    cpoolInv (cpool.init S n bases) ∅ := by
  obtain ⟨hchs, hcur0, hobjS, _⟩ := cpool.init_spec S n bases
  unfold cpool.init_bases_ok chunks_layout_ok at hlayout
  obtain ⟨hb1, hb2⟩ := hlayout
  have hlen : (cpool.init S n bases).chunks.length = n := by
    rw [hchs]
    simp [hblen]
  refine ⟨by rw [hobjS]; exact hS, ?_, ?_, ?_, ?_, ?_, ?_⟩
  · rw [hcur0, hlen]
    exact hn
  · intro i hi
    rw [hchs] at hi ⊢
    rw [hobjS]
    obtain ⟨b, hb⟩ := getD_map_exists _ bases i (by simpa using hi)
    rw [hb, cchunk.init_obj_size]
  · intro i hi
    rw [hchs] at hi ⊢
    obtain ⟨b, hb⟩ := getD_map_exists _ bases i (by simpa using hi)
    rw [hb]
    exact cchunkInvP_fresh _ _ _ hS ∅
      (fun x hx => absurd hx (Finset.not_mem_empty x))
  · intro i hi
    rw [hchs] at hi ⊢
    exact hb1 i hi
  · intro i j hi hj hij
    rw [hchs] at hi hj ⊢
    exact hb2 i hi j hj hij
  · intro a ha
    exact absurd ha (Finset.not_mem_empty a)

/-- C1: starting from a freshly constructed pool, for every sequence of
pool allocate/deallocate calls in which each deallocate frees an address
previously returned by this pool's allocate and not already deallocated
(and buffers are laid out disjointly within the unsigned range, as the
system allocator provides), an address returned by allocate() and still
live is never returned again by a subsequent allocate(): the address the
next allocate() returns is never in the live set. -/
theorem c1_pool_no_live_aliasing (S n : Nat) (bases : List Nat)
    (ops : List pop) (b a : Nat) (hS : 0 < S) (hn : 0 < n)
    (hblen : bases.length = n) (hlayout : cpool.init_bases_ok S bases)
    (hok : pok (cpool.init S n bases, ∅) (ops ++ [pop.alloc b]))
    (hres : ((prun (cpool.init S n bases, ∅) ops).1.allocate b).1 =
      some a) :
    a ∉ (prun (cpool.init S n bases, ∅) ops).2 := by
  obtain ⟨h1, h2⟩ := pok_append _ ops [pop.alloc b] hok
  have hinv := cpoolInv_run _ ops
    (cpoolInv_init S n bases hS hn hblen hlayout) h1
  have hfb : cpool.fresh_base_ok (prun (cpool.init S n bases, ∅) ops).1
      b := by
    cases h2 with
    | alloc _ _ _ hfb _ => exact hfb
  exact cpool_allocate_no_alias _ _ b a hinv hfb hres

/-- Witness for C1: on the freshly constructed one-chunk pool with slot
size 1, allocation (with a disjoint fresh base on offer) returns address 0,
which is not live. -/
theorem c1_pool_no_live_aliasing_witness :
    cpool.init_bases_ok 1 [0] ∧
      ((prun (cpool.init 1 1 [0], ∅) []).1.allocate (2 ^ 20)).1 = some 0 ∧
      0 ∉ (prun (cpool.init 1 1 [0], ∅) []).2 := by
  refine ⟨by decide, by decide, ?_⟩
  exact c1_pool_no_live_aliasing 1 1 [0] [] (2 ^ 20) 0 (by decide)
    (by decide) (by decide) (by decide)
    (pok.alloc _ (2 ^ 20) [] (by decide) (pok.nil _)) (by decide)

/-- C9 (amended): `cchunk::contains` agrees with the exact range test
`[buffer_start, buffer_start + capacity)` for every address at distance
less than `2^32` at or above the buffer start (the cast to 32-bit
`unsigned` truncates larger distances, as the counterexample shows); and
every address returned by the pool's allocate() lies in exactly one
chunk's buffer range. -/
theorem c9_contains_range_amended :
    (∀ (c : cchunk) (addr : Nat), c.mem ≤ addr → addr - c.mem < 2 ^ 32 →
      ((c.contains addr = true) ↔ c.in_range addr))
    ∧ ∀ (S n : Nat) (bases : List Nat) (ops : List pop) (b a : Nat),
        0 < S → 0 < n → bases.length = n → cpool.init_bases_ok S bases →
        pok (cpool.init S n bases, ∅) (ops ++ [pop.alloc b]) →
        ((prun (cpool.init S n bases, ∅) ops).1.allocate b).1 = some a →
        ∃ j, j < (prun (cpool.init S n bases, ∅)
            (ops ++ [pop.alloc b])).1.chunks.length ∧
          ((prun (cpool.init S n bases, ∅)
            (ops ++ [pop.alloc b])).1.chunks.getD j default).in_range a ∧
          ∀ k, k < (prun (cpool.init S n bases, ∅)
              (ops ++ [pop.alloc b])).1.chunks.length →
            ((prun (cpool.init S n bases, ∅)
              (ops ++ [pop.alloc b])).1.chunks.getD k default).in_range a →
            k = j := by
  constructor
  · exact fun c addr h1 h2 => cchunk.contains_iff c addr h1 h2
  · intro S n bases ops b a hS hn hblen hlayout hok hres
    have hinv := cpoolInv_run _ (ops ++ [pop.alloc b])
      (cpoolInv_init S n bases hS hn hblen hlayout) hok
    rw [prun_append] at hinv ⊢
    rcases hra : (prun (cpool.init S n bases, ∅) ops).1.allocate b
      with ⟨r, p'⟩
    rw [hra] at hres
    dsimp only at hres
    subst hres
    have hstep : prun (prun (cpool.init S n bases, ∅) ops)
        [pop.alloc b] =
        (p', insert a (prun (cpool.init S n bases, ∅) ops).2) := by
      show pstep (prun (cpool.init S n bases, ∅) ops) (pop.alloc b) = _
      rcases hPL : prun (cpool.init S n bases, ∅) ops with ⟨P, L⟩
      rw [hPL] at hra
      simp [pstep, hra]
    rw [hstep] at hinv ⊢
    have hmem : a ∈ (p', insert a
        (prun (cpool.init S n bases, ∅) ops).2).2 :=
      Finset.mem_insert_self a _
    obtain ⟨j, hj, hinr⟩ := hinv.howned a hmem
    refine ⟨j, hj, hinr, ?_⟩
    intro k hk hkin
    by_contra hkj
    obtain ⟨f1, f2⟩ := hinr
    obtain ⟨g1, g2⟩ := hkin
    rcases hinv.hdisj k j hk hj hkj with hd | hd <;> omega

/-- Witness for C9 (amended): on the chunk (obj 16, budget 64, base 0),
`contains` accepts the in-range address 3. -/
theorem c9_contains_range_amended_witness :
    ((cchunk.init 16 64 0).mem ≤ 3 ∧
      3 - (cchunk.init 16 64 0).mem < 2 ^ 32) ∧
      (cchunk.init 16 64 0).contains 3 = true := by
  refine ⟨⟨by decide, by decide⟩, ?_⟩
  exact (c9_contains_range_amended.1 (cchunk.init 16 64 0) 3 (by decide)
    (by decide)).2 ⟨by decide, by decide⟩

end warthog.memory
